import Mathlib

/-!
Verification of the two-level bitmap pool allocator of
multi_pool_alloc.hpp (namespace mpa).  The C++ code is shallowly
embedded: machine words of the bitmap (WordType, b bits wide) are
natural numbers kept below 2 ^ b, arrays are lists, and raw pointers
are natural-number addresses.  Word width b, pool object size S, the
byte offset D of the data array inside a pool object and the element
size E are abstract parameters (the C++ defaults give b = 64,
E = sizeof(T), D = 8 + 8 * 64, S = sizeof(pool_t)).
-/

namespace MPA

/-- Fuelled helper of ctz: one unit of fuel per inspected bit; n units
are always enough for a nonzero n. -/
def ctzF : Nat → Nat → Nat
  | 0, _ => 0
  | fuel + 1, n => if n % 2 = 1 then 0 else ctzF fuel (n / 2) + 1

/-- Count trailing zeros: index of the lowest set bit.  Translated from
impl::ctz of multi_pool_alloc.hpp (the portable fallback loop
while (!((1 << bits) & n)) bits++).  The C++ contract excludes n = 0;
the total model returns 0 there. -/
def ctz (n : Nat) : Nat :=
  ctzF n n

/-- Translated from impl::set_bit: n |= T(1) << bit. -/
def set_bit (n bit : Nat) : Nat :=
  n ||| (1 <<< bit)

/-- Translated from impl::clear_bit: n &= ~(T(1) << bit), where the
complement is taken in a b-bit word. -/
def clear_bit (b n bit : Nat) : Nat :=
  n &&& ((2 ^ b - 1) ^^^ (1 <<< bit))

/-- Translated from impl::test_bit: n & (T(1) << bit). -/
def test_bit (n bit : Nat) : Bool :=
  n.testBit bit

/-- Value of a b-bit word with all bits set: ~WordType(0). -/
def allMask (b : Nat) : Nat :=
  2 ^ b - 1

/-- State of pool_t: the two bitmap tiers.  word_bits (called b here) is
a parameter of the operations; unallocated_slots is the array of b
words; the data array itself carries no information, a slot is
identified by its index bucket * b + slot into data. -/
structure pool_t where
  unused_words : Nat
  unallocated_slots : List Nat
deriving DecidableEq

/-- Default pool value used for out-of-range array reads (which the C++
never performs). -/
def poolDefault : pool_t :=
  ⟨0, []⟩

/-- Translated from pool_t::init: both tiers all-ones. -/
def pool_t.init (b : Nat) : pool_t :=
  ⟨allMask b, List.replicate b (allMask b)⟩

/-- Translated from pool_t::allocate.  Returns the slot index
bucket * word_bits + slot (the C++ returns the address of
data[bucket * word_bits + slot]) together with the new state. -/
def pool_t.allocate (b : Nat) (p : pool_t) : Nat × pool_t :=
  let bucket := ctz p.unused_words
  let slot := ctz (p.unallocated_slots.getD bucket 0)
  let w := clear_bit b (p.unallocated_slots.getD bucket 0) slot
  let uw := if w = 0 then clear_bit b p.unused_words bucket else p.unused_words
  (bucket * b + slot, ⟨uw, p.unallocated_slots.set bucket w⟩)

/-- Translated from pool_t::deallocate.  The argument is the slot index
ptr - data (the C++ computes it from the pointer). -/
def pool_t.deallocate (b : Nat) (p : pool_t) (index : Nat) : pool_t :=
  let bucket := index / b
  let slot := index % b
  let w := set_bit (p.unallocated_slots.getD bucket 0) slot
  let uw := if w = allMask b then set_bit p.unused_words bucket else p.unused_words
  ⟨uw, p.unallocated_slots.set bucket w⟩

/-- Translated from pool_t::full: !unused_words. -/
def pool_t.full (p : pool_t) : Bool :=
  p.unused_words == 0

/-- Closed form of the pool state after j allocations from a fresh pool
(0 ≤ j ≤ b * b): buckets below j / b are exhausted, bucket j / b has its
low j % b bits cleared, the rest are untouched. -/
def pool_after (b j : Nat) : pool_t :=
  ⟨2 ^ b - 2 ^ (j / b),
   (List.range b).map fun k =>
     if k < j / b then 0
     else if k = j / b then 2 ^ b - 2 ^ (j % b)
     else 2 ^ b - 1⟩

/-- Iterated pool allocation (j calls of pool_t::allocate), keeping only
the state. -/
def pool_allocN (b : Nat) : Nat → pool_t → pool_t
  | 0, p => p
  | j + 1, p => (pool_t.allocate b (pool_allocN b j p)).2

/-- Operations of a single-pool trace: allocate, or deallocate of the
slot with the given index. -/
inductive PoolOp where
  | alloc : PoolOp
  | dealloc (index : Nat) : PoolOp
deriving DecidableEq

/-- One precondition-checked step of a single-pool trace.  The state
carries the list of live slot indices; allocate requires full() false
(the precondition of claim C2) and deallocate requires a live index
(a pointer previously returned and not freed since). -/
def pool_step (b : Nat) (st : pool_t × List Nat) (op : PoolOp) :
    Option (pool_t × List Nat) :=
  match op with
  | .alloc =>
      if st.1.full then none
      else
        let r := pool_t.allocate b st.1
        some (r.2, r.1 :: st.2)
  | .dealloc i =>
      if i ∈ st.2 then some (pool_t.deallocate b st.1 i, st.2.erase i)
      else none

/-- Run of a single-pool trace from pool_t::init, with the live-slot
list, failing on any precondition violation. -/
def pool_run (b : Nat) (ops : List PoolOp) : Option (pool_t × List Nat) :=
  ops.foldlM (pool_step b) (pool_t.init b, [])

/-- Word k of the unallocated_slots array (0 when out of range, which
the C++ never reads). -/
def word (p : pool_t) (k : Nat) : Nat :=
  p.unallocated_slots.getD k 0

/-- Invariant P1 of the spec: bit k of unused_words is set iff
unallocated_slots[k] is nonzero. -/
def P1 (b : Nat) (p : pool_t) : Prop :=
  ∀ k < b, test_bit p.unused_words k = true ↔ word p k ≠ 0

/-- The direction of P1 the code does maintain: a set bit of
unused_words points at a nonzero word of unallocated_slots. -/
def P1w (b : Nat) (p : pool_t) : Prop :=
  ∀ k < b, test_bit p.unused_words k = true → word p k ≠ 0

/-- Auxiliary invariant: a completely free word of unallocated_slots has
its unused_words bit set. -/
def PFullFree (b : Nat) (p : pool_t) : Prop :=
  ∀ k < b, word p k = allMask b → test_bit p.unused_words k = true

/-- Structural bounds of a pool state: array length b, every word below
2 ^ b, unused_words below 2 ^ b. -/
def poolBounds (b : Nat) (p : pool_t) : Prop :=
  p.unallocated_slots.length = b ∧ p.unused_words < 2 ^ b ∧
    ∀ w ∈ p.unallocated_slots, w < 2 ^ b

/-- Invariant of single-pool traces: structural bounds, the maintained
direction of P1, the full-word property, and validity of live slot
indices. -/
def poolTraceInv (b : Nat) (st : pool_t × List Nat) : Prop :=
  poolBounds b st.1 ∧ P1w b st.1 ∧ PFullFree b st.1 ∧ ∀ i ∈ st.2, i < b * b

/-- Geometry of the memory layout, fixed at type-binding time in the
C++: word width b = word_bits, S = sizeof(pool_t), D = the byte offset
of the data member inside pool_t, E = sizeof(T). -/
structure geo_t where
  b : Nat
  S : Nat
  D : Nat
  E : Nat
deriving DecidableEq

/-- Facts about the geometry that hold for every C++ instantiation:
at least two bits per word, nonempty elements, the data array lies
inside the pool object, and a pool holds fewer than 2 ^ 32 slots (so
the uint32_t cast in pool_t::deallocate is lossless). -/
def geo_ok (g : geo_t) : Prop :=
  2 ≤ g.b ∧ 0 < g.E ∧ 0 < g.S ∧ g.D + g.b * g.b * g.E ≤ g.S ∧
    g.b * g.b ≤ 2 ^ 32

/-- Geometry of the default C++ instantiation pool_t of a 64-bit
element: b = 64, sizeof(pool_t) = 8 + 8 * 64 + 8 * 4096 = 33288,
offsetof(data) = 520, sizeof(T) = 8. -/
def g64 : geo_t :=
  ⟨64, 33288, 520, 8⟩

/-- State of impl::block_t plus the pool objects it owns: ptr is the
malloc address of the array of b pools; the pool states, stored behind
ptr in the C++, are carried in the record. -/
structure block_t where
  ptr : Nat
  unmaxed_pools : Nat
  pools : List pool_t
deriving DecidableEq

/-- State of multi_pool_t: the vector of blocks. -/
structure multi_pool_t where
  memory_blocks : List block_t
deriving DecidableEq

/-- Default block value used for out-of-range array reads (which the C++
never performs). -/
def blockDefault : block_t :=
  ⟨0, 0, []⟩

/-- Address of slot index within pool pool_idx of a block based at
base: base + pool_idx * sizeof(pool_t) + offsetof(data) +
index * sizeof(T). -/
def slot_addr (g : geo_t) (base pool_idx index : Nat) : Nat :=
  base + pool_idx * g.S + g.D + index * g.E

/-- Translated from multi_pool_t::new_block.  The malloc outcome is the
argument: some base on success, none (a null pointer, address 0) on
failure — the C++ performs no check and pushes the record either way. -/
def multi_pool_t.new_block (g : geo_t) (m : Option Nat) (s : multi_pool_t) :
    multi_pool_t :=
  ⟨s.memory_blocks ++ [⟨m.getD 0, allMask g.b, List.replicate g.b (pool_t.init g.b)⟩]⟩

/-- Construction of multi_pool_t: one fresh block (the constructor calls
new_block once), with the given malloc outcome. -/
def multi_pool_t.init (g : geo_t) (m : Option Nat) : multi_pool_t :=
  multi_pool_t.new_block g m ⟨[]⟩

/-- Body of the block-scan loop of multi_pool_t::allocate for the block
that serves the request: pool ctz(unmaxed_pools) allocates, and its
unmaxed_pools bit is cleared when that pool becomes full.  Returns the
slot address and the updated block. -/
def blk_alloc (g : geo_t) (blk : block_t) : Nat × block_t :=
  let pool_idx := ctz blk.unmaxed_pools
  let r := pool_t.allocate g.b (blk.pools.getD pool_idx poolDefault)
  let unmaxed :=
    if r.2.full then clear_bit g.b blk.unmaxed_pools pool_idx
    else blk.unmaxed_pools
  (slot_addr g blk.ptr pool_idx r.1,
    ⟨blk.ptr, unmaxed, blk.pools.set pool_idx r.2⟩)

/-- The scan of multi_pool_t::allocate: blocks are visited from tail
(end of the list) toward head; the first block with unmaxed_pools ≠ 0
serves the allocation through blk_alloc.  Returns the slot address and
the updated block list, or none when every block is exhausted. -/
def alloc_scan (g : geo_t) : List block_t → Option (Nat × List block_t)
  | [] => none
  | blk :: rest =>
    match alloc_scan g rest with
    | some (p, rest1) => some (p, blk :: rest1)
    | none =>
      if blk.unmaxed_pools ≠ 0 then
        some ((blk_alloc g blk).1, (blk_alloc g blk).2 :: rest)
      else none

/-- Translated from multi_pool_t::allocate (release build: the
assert(n == 1) compiles away and n is otherwise unused).  When no block
has capacity, new_block runs with the given malloc outcome m and the
request is served from pool 0 of the fresh block — without touching its
unmaxed_pools, exactly as the C++ return path does. -/
def multi_pool_t.allocate (g : geo_t) (n : Nat) (m : Option Nat)
    (s : multi_pool_t) : Nat × multi_pool_t :=
  match alloc_scan g s.memory_blocks with
  | some (p, blocks) => (p, ⟨blocks⟩)
  | none =>
    let s1 := multi_pool_t.new_block g m s
    let blk := s1.memory_blocks.getLastD blockDefault
    let r := pool_t.allocate g.b (blk.pools.getD 0 poolDefault)
    (slot_addr g blk.ptr 0 r.1,
      ⟨s1.memory_blocks.dropLast ++ [⟨blk.ptr, blk.unmaxed_pools, blk.pools.set 0 r.2⟩]⟩)

/-- Debug-build multi_pool_t::allocate: the assert(n == 1) aborts on any
other count. -/
def multi_pool_t.allocate_dbg (g : geo_t) (n : Nat) (m : Option Nat)
    (s : multi_pool_t) : Option (Nat × multi_pool_t) :=
  if n = 1 then some (multi_pool_t.allocate g n m s) else none

/-- Pool index the deallocation scan computes for pointer ptr against a
block based at base: the C++ forms the byte distance as a signed
ptrdiff_t, converts it to the 64-bit unsigned size_t, and divides by
sizeof(pool_t). -/
def dealloc_pool_idx (g : geo_t) (ptr base : Nat) : Nat :=
  ((((ptr : Int) - (base : Int)) % (2 ^ 64)).toNat) / g.S

/-- Slot index pool_t::deallocate computes from the pointer: the element
distance ptr - data truncated to uint32_t. -/
def dealloc_index (g : geo_t) (ptr base pool_idx : Nat) : Nat :=
  ((((ptr : Int) - ((base + pool_idx * g.S + g.D : Nat) : Int)) / (g.E : Int)) %
    (2 ^ 32)).toNat

/-- Body of the block-scan loop of multi_pool_t::deallocate for the
matched block: set the unmaxed_pools bit of the computed pool index and
delegate to that pool. -/
def blk_dealloc (g : geo_t) (ptr : Nat) (blk : block_t) : block_t :=
  let pool_idx := dealloc_pool_idx g ptr blk.ptr
  let pool := blk.pools.getD pool_idx poolDefault
  let pool1 := pool_t.deallocate g.b pool (dealloc_index g ptr blk.ptr pool_idx)
  ⟨blk.ptr, set_bit blk.unmaxed_pools pool_idx, blk.pools.set pool_idx pool1⟩

/-- The scan of multi_pool_t::deallocate: blocks are visited from tail
toward head; the first block whose computed pool index is below
pools_in_block owns the pointer: its unmaxed_pools bit is set, the pool
deallocates, and the loop breaks.  Returns none when no block matches
(the C++ loop just ends). -/
def dealloc_scan (g : geo_t) (ptr : Nat) : List block_t → Option (List block_t)
  | [] => none
  | blk :: rest =>
    match dealloc_scan g ptr rest with
    | some rest1 => some (blk :: rest1)
    | none =>
      if dealloc_pool_idx g ptr blk.ptr < g.b then
        some (blk_dealloc g ptr blk :: rest)
      else none

/-- Translated from multi_pool_t::deallocate; n is unused (no assert
mentions it, in debug or release). -/
def multi_pool_t.deallocate (g : geo_t) (ptr : Nat) (n : Nat)
    (s : multi_pool_t) : multi_pool_t :=
  match dealloc_scan g ptr s.memory_blocks with
  | some blocks => ⟨blocks⟩
  | none => s

/-- The block multi_pool_t::allocate would serve from: the last block of
the list with unmaxed_pools ≠ 0, if any. -/
def sel_block : List block_t → Option block_t
  | [] => none
  | blk :: rest =>
    match sel_block rest with
    | some x => some x
    | none => if blk.unmaxed_pools ≠ 0 then some blk else none

/-- A pool on which pool_t::allocate runs without feeding zero to ctz:
it is not full, and the selected word is nonzero. -/
def pool_alloc_safe (b : Nat) (p : pool_t) : Bool :=
  p.unused_words != 0 && p.unallocated_slots.getD (ctz p.unused_words) 0 != 0

/-- A multi-pool state on which allocate performs no undefined ctz(0):
either every block is exhausted (growth path) or the selected pool is
safe. -/
def alloc_ok (g : geo_t) (s : multi_pool_t) : Bool :=
  match sel_block s.memory_blocks with
  | none => true
  | some blk => pool_alloc_safe g.b (blk.pools.getD (ctz blk.unmaxed_pools) poolDefault)

/-- A usable malloc result for a new block: nonnull, the block fits in
the 64-bit address space. -/
def block_fits (g : geo_t) (base : Nat) : Bool :=
  decide (0 < base ∧ base + g.b * g.S ≤ 2 ^ 64)

/-- Address ranges of two blocks do not overlap. -/
def ranges_disjoint (g : geo_t) (a c : Nat) : Bool :=
  decide (a + g.b * g.S ≤ c ∨ c + g.b * g.S ≤ a)

/-- A fresh malloc result is usable and disjoint from every existing
block. -/
def fresh_base_ok (g : geo_t) (m : Nat) (blocks : List block_t) : Bool :=
  block_fits g m && blocks.all fun blk => ranges_disjoint g m blk.ptr

/-- Operations of a multi-pool trace: allocate(1) (with the malloc
outcome to use if a new block is needed) or deallocate(ptr, 1). -/
inductive MPOp where
  | alloc (m : Nat) : MPOp
  | dealloc (ptr : Nat) : MPOp
deriving DecidableEq

/-- One precondition-checked step of a multi-pool trace: allocate
requires a state on which the C++ hits no undefined ctz(0) and, on the
growth path, a usable disjoint malloc result; deallocate requires a
live pointer (previously returned by allocate, not freed since). -/
def mp_step (g : geo_t) (st : multi_pool_t × List Nat) (op : MPOp) :
    Option (multi_pool_t × List Nat) :=
  match op with
  | .alloc m =>
      if alloc_ok g st.1 &&
          (match sel_block st.1.memory_blocks with
           | none => fresh_base_ok g m st.1.memory_blocks
           | some _ => true) then
        let r := multi_pool_t.allocate g 1 (some m) st.1
        some (r.2, r.1 :: st.2)
      else none
  | .dealloc ptr =>
      if ptr ∈ st.2 then
        some (multi_pool_t.deallocate g ptr 1 st.1, st.2.erase ptr)
      else none

/-- Run of a multi-pool trace from construction (initial block at
base0), with the live-pointer list, failing on any precondition
violation. -/
def mp_run (g : geo_t) (base0 : Nat) (ops : List MPOp) :
    Option (multi_pool_t × List Nat) :=
  if block_fits g base0 then
    ops.foldlM (mp_step g) (multi_pool_t.init g (some base0), [])
  else none

/-- Invariant B1 of the spec for one block: bit i of unmaxed_pools is
set iff pool i is not full. -/
def B1 (g : geo_t) (blk : block_t) : Prop :=
  ∀ i < g.b, test_bit blk.unmaxed_pools i = true ↔
    (blk.pools.getD i poolDefault).full = false

/-- The direction of B1 the code does maintain: a pool that is not full
has its unmaxed_pools bit set. -/
def B1w (g : geo_t) (blk : block_t) : Prop :=
  ∀ i < g.b, (blk.pools.getD i poolDefault).full = false →
    test_bit blk.unmaxed_pools i = true

/-- Every visible flag of the multi-pool is all-ones (the
post-construction value in every block). -/
def all_ones (g : geo_t) (s : multi_pool_t) : Prop :=
  ∀ blk ∈ s.memory_blocks, blk.unmaxed_pools = allMask g.b ∧
    ∀ p ∈ blk.pools, p.unused_words = allMask g.b ∧
      ∀ w ∈ p.unallocated_slots, w = allMask g.b

/-- Condition of the assert inside multi_pool_t::deallocate: the byte
distance from the matched pool object, converted to the unsigned
size_t, is below sizeof(pool_t). -/
def assert_ptr_ok (g : geo_t) (ptr base pool_idx : Nat) : Bool :=
  decide (((((ptr : Int) - ((base + pool_idx * g.S : Nat) : Int)) % (2 ^ 64)).toNat) < g.S)

/-- Debug-build deallocation scan: like dealloc_scan, but the assert on
the matched block aborts (outer none) when its condition fails; some
none means the scan ran off the head without a match. -/
def dealloc_scan_dbg (g : geo_t) (ptr : Nat) :
    List block_t → Option (Option (List block_t))
  | [] => some none
  | blk :: rest =>
    match dealloc_scan_dbg g ptr rest with
    | none => none
    | some (some rest1) => some (some (blk :: rest1))
    | some none =>
      let pool_idx := dealloc_pool_idx g ptr blk.ptr
      if pool_idx < g.b then
        if assert_ptr_ok g ptr blk.ptr pool_idx then
          some (some (⟨blk.ptr, set_bit blk.unmaxed_pools pool_idx,
            blk.pools.set pool_idx (pool_t.deallocate g.b
              (blk.pools.getD pool_idx poolDefault)
              (dealloc_index g ptr blk.ptr pool_idx))⟩ :: rest))
        else none
      else some none

/-- Debug-build multi_pool_t::deallocate: the in-loop assert may abort;
the count n appears in no assert and is otherwise unused, exactly as in
the source. -/
def multi_pool_t.deallocate_dbg (g : geo_t) (ptr n : Nat) (s : multi_pool_t) :
    Option multi_pool_t :=
  match dealloc_scan_dbg g ptr s.memory_blocks with
  | none => none
  | some (some blocks) => some ⟨blocks⟩
  | some none => some s

/-- Iterated multi-pool allocation (j calls of allocate(1)), keeping
only the state; no growth occurs in the uses below, so the malloc
outcome passed along is arbitrary. -/
def mp_allocN (g : geo_t) : Nat → multi_pool_t → multi_pool_t
  | 0, s => s
  | j + 1, s => (multi_pool_t.allocate g 1 (some 0) (mp_allocN g j s)).2

/-- Closed form of the multi-pool state after j ≤ b * b allocations from
construction: a single block whose pool 0 is pool_after j; its
unmaxed_pools bit 0 is cleared exactly when pool 0 has just become
full. -/
def mp_after (g : geo_t) (base0 j : Nat) : multi_pool_t :=
  ⟨[⟨base0,
     if j < g.b * g.b then allMask g.b else clear_bit g.b (allMask g.b) 0,
     (List.replicate g.b (pool_t.init g.b)).set 0 (pool_after g.b j)⟩]⟩

/-- Structural and safety invariants of one block: b pools, all words
bounded, a usable base address, the maintained direction of B1, and the
pool invariants. -/
def blockInv (g : geo_t) (blk : block_t) : Prop :=
  blk.pools.length = g.b ∧ blk.unmaxed_pools < 2 ^ g.b ∧
    block_fits g blk.ptr = true ∧ B1w g blk ∧
    ∀ p ∈ blk.pools, poolBounds g.b p ∧ P1w g.b p ∧ PFullFree g.b p

/-- Pairwise disjointness of the address ranges of the blocks (stated on
the list of base addresses, which allocation never changes). -/
def sepInv (g : geo_t) (s : multi_pool_t) : Prop :=
  (s.memory_blocks.map block_t.ptr).Pairwise fun a c =>
    ranges_disjoint g a c = true

/-- Live-pointer list of the closed-form run: the first j allocations
from construction return the addresses of slots 0 .. j-1 of pool 0 of
the initial block, latest first. -/
def mp_live_after (g : geo_t) (base0 j : Nat) : List Nat :=
  (List.range j).reverse.map fun t => slot_addr g base0 0 t

/-- Master invariant of reachable multi-pool states. -/
def MPInv (g : geo_t) (s : multi_pool_t) : Prop :=
  (∀ blk ∈ s.memory_blocks, blockInv g blk) ∧ sepInv g s

/-- Flag of slot t of bucket k of pool i of block j (true when the slot
is free). -/
def slotFree (s : multi_pool_t) (j i k t : Nat) : Bool :=
  test_bit (((s.memory_blocks.getD j blockDefault).pools.getD i
    poolDefault).unallocated_slots.getD k 0) t

/-- Address of slot (k, t) of pool i of block j of the state. -/
def live_addr (g : geo_t) (s : multi_pool_t) (j i k t : Nat) : Nat :=
  slot_addr g (s.memory_blocks.getD j blockDefault).ptr i (k * g.b + t)

/-- Correspondence between the live-pointer list of a trace and the
cleared slot bits of the state: every live pointer is the address of
some cleared slot, every cleared slot's address is live, and no pointer
is live twice. -/
def LiveOK (g : geo_t) (s : multi_pool_t) (live : List Nat) : Prop :=
  (∀ ptr ∈ live, ∃ j i k t, j < s.memory_blocks.length ∧ i < g.b ∧
      k < g.b ∧ t < g.b ∧ ptr = live_addr g s j i k t ∧
      slotFree s j i k t = false) ∧
  (∀ j i k t, j < s.memory_blocks.length → i < g.b → k < g.b → t < g.b →
      slotFree s j i k t = false → live_addr g s j i k t ∈ live) ∧
  live.Nodup

/-- Combined invariant of multi-pool traces: the master state invariant
plus the live-pointer correspondence. -/
def MPTraceInv (g : geo_t) (st : multi_pool_t × List Nat) : Prop :=
  MPInv g st.1 ∧ LiveOK g st.1 st.2

/-- The pool the next allocation would use exists and its selected
bucket has a second free slot besides the one ctz picks (the hypothesis
of the amended round-trip law). -/
def rich_sel (g : geo_t) (s : multi_pool_t) : Bool :=
  match sel_block s.memory_blocks with
  | none => false
  | some blk =>
    let p := blk.pools.getD (ctz blk.unmaxed_pools) poolDefault
    let w := p.unallocated_slots.getD (ctz p.unused_words) 0
    pool_alloc_safe g.b p && decide (w ≠ 2 ^ ctz w)

/-! Decidability of the invariant predicates, so that concrete
instances can be checked by evaluation. -/

instance (b : Nat) (p : pool_t) : Decidable (P1 b p) := by
  unfold P1; exact Nat.decidableBallLT _ _

instance (b : Nat) (p : pool_t) : Decidable (P1w b p) := by
  unfold P1w; exact Nat.decidableBallLT _ _

instance (b : Nat) (p : pool_t) : Decidable (PFullFree b p) := by
  unfold PFullFree; exact Nat.decidableBallLT _ _

instance (b : Nat) (p : pool_t) : Decidable (poolBounds b p) := by
  unfold poolBounds; infer_instance

instance (b : Nat) (st : pool_t × List Nat) : Decidable (poolTraceInv b st) := by
  unfold poolTraceInv; infer_instance

instance (g : geo_t) : Decidable (geo_ok g) := by
  unfold geo_ok; infer_instance

instance (g : geo_t) (blk : block_t) : Decidable (B1 g blk) := by
  unfold B1; exact Nat.decidableBallLT _ _

instance (g : geo_t) (blk : block_t) : Decidable (B1w g blk) := by
  unfold B1w; exact Nat.decidableBallLT _ _

instance (g : geo_t) (blk : block_t) : Decidable (blockInv g blk) := by
  unfold blockInv; infer_instance

instance (g : geo_t) (s : multi_pool_t) : Decidable (sepInv g s) := by
  unfold sepInv; infer_instance

instance (g : geo_t) (s : multi_pool_t) : Decidable (MPInv g s) := by
  unfold MPInv; infer_instance

instance (g : geo_t) (s : multi_pool_t) : Decidable (all_ones g s) := by
  unfold all_ones; infer_instance

/-! Word-level lemmas. -/

theorem allMask_testBit (b i : Nat) : (allMask b).testBit i = decide (i < b) := by
  simp [allMask, Nat.testBit_two_pow_sub_one]

theorem allMask_lt (b : Nat) : allMask b < 2 ^ b := by
  have h : 0 < 2 ^ b := Nat.pos_pow_of_pos b (by decide)
  simp only [allMask]
  omega

theorem one_shl (bit : Nat) : 1 <<< bit = 2 ^ bit := by
  rw [Nat.shiftLeft_eq, Nat.one_mul]

theorem set_bit_testBit (n bit i : Nat) :
    (set_bit n bit).testBit i = (n.testBit i || decide (bit = i)) := by
  simp [set_bit, Nat.testBit_lor, one_shl, Nat.testBit_two_pow]

theorem set_bit_lt {b n bit : Nat} (hn : n < 2 ^ b) (hb : bit < b) :
    set_bit n bit < 2 ^ b := by
  refine Nat.or_lt_two_pow hn ?_
  rw [one_shl]
  exact Nat.pow_lt_pow_right (by decide) hb

theorem clear_bit_testBit {b n : Nat} (bit i : Nat) (hn : n < 2 ^ b) :
    (clear_bit b n bit).testBit i = (n.testBit i && !decide (bit = i)) := by
  simp only [clear_bit, Nat.testBit_land, Nat.testBit_xor, one_shl,
    Nat.testBit_two_pow_sub_one, Nat.testBit_two_pow]
  by_cases hib : i < b
  · simp [hib]
  · have : n.testBit i = false :=
      Nat.testBit_lt_two_pow (lt_of_lt_of_le hn (Nat.pow_le_pow_right (by decide) (by omega)))
    simp [this]

theorem clear_bit_lt {b n : Nat} (bit : Nat) (hn : n < 2 ^ b) :
    clear_bit b n bit < 2 ^ b :=
  lt_of_le_of_lt (Nat.and_le_left) hn

theorem testBit_pow_sub_pow {r b : Nat} (h : r ≤ b) (i : Nat) :
    (2 ^ b - 2 ^ r).testBit i = (decide (r ≤ i) && decide (i < b)) := by
  have hrw : 2 ^ b - 2 ^ r = (2 ^ (b - r) - 1) <<< r := by
    rw [Nat.shiftLeft_eq, Nat.sub_one_mul, ← Nat.pow_add, Nat.sub_add_cancel h]
  rw [hrw, Nat.testBit_shiftLeft, Nat.testBit_two_pow_sub_one]
  by_cases hri : r ≤ i
  · have : (i - r < b - r) = (i < b) := by
      apply propext; omega
    simp [hri, this]
  · simp [hri, Nat.not_le.mp hri]

/-! Lemmas about ctz. -/

theorem ctzF_congr : ∀ n f1 f2 : Nat, n ≠ 0 → n ≤ f1 → n ≤ f2 →
    ctzF f1 n = ctzF f2 n := by
  intro n
  induction n using Nat.strong_induction_on with
  | _ n ih =>
    intro f1 f2 hn h1 h2
    obtain ⟨g1, rfl⟩ : ∃ g, f1 = g + 1 := ⟨f1 - 1, by omega⟩
    obtain ⟨g2, rfl⟩ : ∃ g, f2 = g + 1 := ⟨f2 - 1, by omega⟩
    by_cases h : n % 2 = 1
    · simp [ctzF, h]
    · have hn2 : n / 2 ≠ 0 := by omega
      simp only [ctzF, if_neg h]
      rw [ih (n / 2) (by omega) g1 g2 hn2 (by omega) (by omega)]

theorem ctz_odd {n : Nat} (h : n % 2 = 1) : ctz n = 0 := by
  obtain ⟨m, rfl⟩ : ∃ m, n = m + 1 := ⟨n - 1, by omega⟩
  rw [ctz]
  simp [ctzF, h]

theorem ctz_even {n : Nat} (hn : n ≠ 0) (h : n % 2 = 0) :
    ctz n = ctz (n / 2) + 1 := by
  obtain ⟨m, rfl⟩ : ∃ m, n = m + 1 := ⟨n - 1, by omega⟩
  rw [ctz, ctz]
  show (if (m + 1) % 2 = 1 then 0 else ctzF m ((m + 1) / 2) + 1) = _
  rw [if_neg (by omega)]
  rw [ctzF_congr ((m + 1) / 2) m ((m + 1) / 2) (by omega) (by omega) (by omega)]

theorem ctz_testBit : ∀ n : Nat, n ≠ 0 → n.testBit (ctz n) = true := by
  intro n
  induction n using Nat.strong_induction_on with
  | _ n ih =>
    intro hn
    rcases Nat.mod_two_eq_zero_or_one n with h | h
    · have hd : n / 2 ≠ 0 := by omega
      rw [ctz_even hn h, Nat.testBit_add_one]
      exact ih (n / 2) (Nat.div_lt_self (Nat.pos_of_ne_zero hn) (by decide)) hd
    · rw [ctz_odd h, Nat.testBit_zero]
      simp [h]

theorem ctz_min : ∀ n j : Nat, j < ctz n → n.testBit j = false := by
  intro n
  induction n using Nat.strong_induction_on with
  | _ n ih =>
    intro j hj
    by_cases hn : n = 0
    · subst hn; simp [Nat.testBit]
    rcases Nat.mod_two_eq_zero_or_one n with h | h
    · rw [ctz_even hn h] at hj
      match j with
      | 0 => rw [Nat.testBit_zero]; simp [h]
      | j + 1 =>
        rw [Nat.testBit_add_one]
        exact ih (n / 2) (Nat.div_lt_self (Nat.pos_of_ne_zero hn) (by decide)) j
          (by omega)
    · rw [ctz_odd h] at hj
      omega

theorem ctz_lt {n b : Nat} (hn : n ≠ 0) (hb : n < 2 ^ b) : ctz n < b := by
  by_contra hge
  have h1 : n.testBit (ctz n) = true := ctz_testBit n hn
  have h2 : n.testBit (ctz n) = false :=
    Nat.testBit_lt_two_pow
      (lt_of_lt_of_le hb (Nat.pow_le_pow_right (by decide) (by omega)))
  rw [h1] at h2
  exact Bool.noConfusion h2

theorem ctz_uniq : ∀ q n : Nat, n.testBit q = true →
    (∀ j < q, n.testBit j = false) → ctz n = q := by
  intro q
  induction q with
  | zero =>
    intro n h _
    rw [Nat.testBit_zero] at h
    exact ctz_odd (by simpa using h)
  | succ q ih =>
    intro n h hmin
    have h0 : n.testBit 0 = false := hmin 0 (Nat.succ_pos q)
    rw [Nat.testBit_zero] at h0
    have hev : n % 2 = 0 := by
      rcases Nat.mod_two_eq_zero_or_one n with hh | hh
      · exact hh
      · simp [hh] at h0
    have hn : n ≠ 0 := by
      intro h0n
      subst h0n
      simp [Nat.testBit] at h
    rw [ctz_even hn hev]
    congr 1
    refine ih (n / 2) (by rwa [← Nat.testBit_add_one]) ?_
    intro j hj
    rw [← Nat.testBit_add_one]
    exact hmin (j + 1) (by omega)

theorem ctz_pow_sub_pow {r b : Nat} (h : r < b) : ctz (2 ^ b - 2 ^ r) = r := by
  refine ctz_uniq r _ ?_ ?_
  · rw [testBit_pow_sub_pow (le_of_lt h)]
    simp [h]
  · intro j hj
    rw [testBit_pow_sub_pow (le_of_lt h)]
    simp [hj, Nat.not_le.mpr hj]

theorem ctz_allMask {b : Nat} (hb : 0 < b) : ctz (allMask b) = 0 := by
  have := ctz_pow_sub_pow (r := 0) (b := b) hb
  simpa [allMask] using this

theorem pow_sub_pow_ne_zero {r b : Nat} (h : r < b) : 2 ^ b - 2 ^ r ≠ 0 := by
  have : 2 ^ r < 2 ^ b := Nat.pow_lt_pow_right (by decide) h
  omega

theorem allMask_ne_zero {b : Nat} (hb : 0 < b) : allMask b ≠ 0 := by
  have := pow_sub_pow_ne_zero (r := 0) (b := b) hb
  simpa [allMask] using this

/-! List access helpers. -/

theorem getD_set_eq {α : Type} (l : List α) (i : Nat) (a d : α)
    (h : i < l.length) : (l.set i a).getD i d = a := by
  simp [List.getD_eq_getElem?_getD, List.getElem?_set, h]

theorem getD_set_ne {α : Type} (l : List α) {i j : Nat} (a : α) (d : α)
    (h : i ≠ j) : (l.set i a).getD j d = l.getD j d := by
  simp [List.getD_eq_getElem?_getD, List.getElem?_set, h]

theorem getD_replicate {α : Type} {n i : Nat} (a d : α) (h : i < n) :
    (List.replicate n a).getD i d = a := by
  simp [List.getD_eq_getElem?_getD, List.getElem?_replicate, h]

theorem getD_range_map {α : Type} {b k : Nat} (f : Nat → α) (d : α)
    (h : k < b) : ((List.range b).map f).getD k d = f k := by
  simp [List.getD_eq_getElem?_getD, List.getElem?_map, List.getElem?_range, h]

theorem mem_set_bound {α : Type} {l : List α} {i : Nat} {a : α}
    {P : α → Prop} (hl : ∀ x ∈ l, P x) (ha : P a) :
    ∀ x ∈ l.set i a, P x := by
  intro x hx
  rcases List.mem_or_eq_of_mem_set hx with h | h
  · exact hl x h
  · subst h; exact ha

theorem word_lt {b : Nat} {p : pool_t}
    (hws : ∀ w ∈ p.unallocated_slots, w < 2 ^ b) (k : Nat) :
    word p k < 2 ^ b := by
  rw [word]
  rcases Nat.lt_or_ge k p.unallocated_slots.length with hlt | hge
  · rw [List.getD_eq_getElem _ _ hlt]
    exact hws _ (List.getElem_mem hlt)
  · rw [List.getD_eq_default _ _ hge]
    exact Nat.pos_pow_of_pos b (by decide)

/-! Behaviour of one pool_t::allocate call. -/

theorem pool_allocate_index (b : Nat) (p : pool_t) :
    (pool_t.allocate b p).1 = ctz p.unused_words * b + ctz (word p (ctz p.unused_words)) :=
  rfl

theorem pool_allocate_slots (b : Nat) (p : pool_t) :
    (pool_t.allocate b p).2.unallocated_slots =
      p.unallocated_slots.set (ctz p.unused_words)
        (clear_bit b (word p (ctz p.unused_words)) (ctz (word p (ctz p.unused_words)))) :=
  rfl

theorem pool_allocate_uw (b : Nat) (p : pool_t) :
    (pool_t.allocate b p).2.unused_words =
      if clear_bit b (word p (ctz p.unused_words)) (ctz (word p (ctz p.unused_words))) = 0
      then clear_bit b p.unused_words (ctz p.unused_words)
      else p.unused_words :=
  rfl

theorem pool_allocate_word_eq {b : Nat} (p : pool_t)
    (hlen : p.unallocated_slots.length = b)
    (hk : ctz p.unused_words < b) :
    word (pool_t.allocate b p).2 (ctz p.unused_words) =
      clear_bit b (word p (ctz p.unused_words)) (ctz (word p (ctz p.unused_words))) := by
  rw [word, pool_allocate_slots]
  exact getD_set_eq _ _ _ _ (by rw [hlen]; exact hk)

theorem pool_allocate_word_ne {b : Nat} (p : pool_t) {k : Nat}
    (hk : ctz p.unused_words ≠ k) :
    word (pool_t.allocate b p).2 k = word p k := by
  rw [word, pool_allocate_slots]
  exact getD_set_ne _ _ _ hk

theorem pool_allocate_bounds {b : Nat} (p : pool_t) (hB : poolBounds b p) :
    poolBounds b (pool_t.allocate b p).2 := by
  obtain ⟨hlen, huw, hws⟩ := hB
  refine ⟨?_, ?_, ?_⟩
  · rw [pool_allocate_slots, List.length_set, hlen]
  · rw [pool_allocate_uw]
    split
    · exact clear_bit_lt _ huw
    · exact huw
  · rw [pool_allocate_slots]
    refine mem_set_bound hws ?_
    exact clear_bit_lt _ (word_lt hws _)

theorem pool_allocate_uw_testBit {b : Nat} (p : pool_t) {k : Nat}
    (huw : p.unused_words < 2 ^ b) (hk : ctz p.unused_words ≠ k) :
    (pool_t.allocate b p).2.unused_words.testBit k = p.unused_words.testBit k := by
  rw [pool_allocate_uw]
  split
  · rw [clear_bit_testBit _ _ huw]
    simp [hk]
  · rfl

theorem pool_allocate_P1w {b : Nat} (p : pool_t) (hB : poolBounds b p)
    (h1 : P1w b p) : P1w b (pool_t.allocate b p).2 := by
  obtain ⟨hlen, huw, hws⟩ := hB
  intro k hkb hbit
  by_cases hk : ctz p.unused_words = k
  · subst hk
    rw [test_bit, pool_allocate_uw] at hbit
    split at hbit
    · rw [clear_bit_testBit _ _ huw] at hbit
      simp at hbit
    · rw [word, pool_allocate_slots]
      rw [getD_set_eq _ _ _ _ (by rw [hlen]; exact hkb)]
      assumption
  · rw [test_bit, pool_allocate_uw_testBit p huw hk] at hbit
    have := h1 k hkb hbit
    rwa [word, pool_allocate_slots, getD_set_ne _ _ _ hk]

theorem pool_allocate_PFullFree {b : Nat} (p : pool_t) (hb : 0 < b)
    (hB : poolBounds b p) (h2 : PFullFree b p) :
    PFullFree b (pool_t.allocate b p).2 := by
  obtain ⟨hlen, huw, hws⟩ := hB
  intro k hkb hfull
  by_cases hk : ctz p.unused_words = k
  · subst hk
    rw [word, pool_allocate_slots,
      getD_set_eq _ _ _ _ (by rw [hlen]; exact hkb)] at hfull
    by_cases hw0 : word p (ctz p.unused_words) = 0
    · rw [hw0] at hfull
      rw [clear_bit, Nat.zero_and] at hfull
      exact absurd hfull.symm (allMask_ne_zero hb)
    · have hs := ctz_lt hw0 (word_lt hws (ctz p.unused_words))
      have hbit := congrArg (fun n => n.testBit (ctz (word p (ctz p.unused_words)))) hfull
      simp only at hbit
      rw [clear_bit_testBit _ _ (word_lt hws _), allMask_testBit] at hbit
      simp [hs] at hbit
  · rw [word, pool_allocate_slots, getD_set_ne _ _ _ hk] at hfull
    have := h2 k hkb hfull
    rw [test_bit] at this ⊢
    rwa [pool_allocate_uw_testBit p huw hk]

/-! Behaviour of one pool_t::deallocate call on the slot index
k * b + t. -/

theorem pool_full_iff (p : pool_t) : p.full = true ↔ p.unused_words = 0 := by
  simp [pool_t.full]

theorem pool_full_false_iff (p : pool_t) :
    p.full = false ↔ p.unused_words ≠ 0 := by
  simp [pool_t.full]

theorem set_bit_ne_zero (n bit : Nat) : set_bit n bit ≠ 0 := by
  intro h
  have := congrArg (fun m => m.testBit bit) h
  simp only at this
  rw [set_bit_testBit] at this
  simp [Nat.testBit] at this

theorem pool_deallocate_eq {b : Nat} (p : pool_t) {k t : Nat} (hb : 0 < b)
    (ht : t < b) :
    pool_t.deallocate b p (k * b + t) =
      ⟨if set_bit (word p k) t = allMask b then set_bit p.unused_words k
        else p.unused_words,
       p.unallocated_slots.set k (set_bit (word p k) t)⟩ := by
  have h1 : (k * b + t) / b = k := by
    rw [Nat.add_comm, Nat.add_mul_div_right _ _ hb, Nat.div_eq_of_lt ht,
      Nat.zero_add]
  have h2 : (k * b + t) % b = t := by
    rw [Nat.add_comm, Nat.add_mul_mod_self_right, Nat.mod_eq_of_lt ht]
  unfold pool_t.deallocate
  rw [h1, h2, word]

theorem pool_deallocate_bounds {b : Nat} (p : pool_t) {k t : Nat}
    (hb : 0 < b) (hk : k < b) (ht : t < b) (hB : poolBounds b p) :
    poolBounds b (pool_t.deallocate b p (k * b + t)) := by
  obtain ⟨hlen, huw, hws⟩ := hB
  rw [pool_deallocate_eq p hb ht]
  refine ⟨by simp [List.length_set, hlen], ?_, ?_⟩
  · dsimp only
    split
    · exact set_bit_lt huw hk
    · exact huw
  · dsimp only
    exact mem_set_bound hws (set_bit_lt (word_lt hws k) ht)

theorem pool_deallocate_P1w {b : Nat} (p : pool_t) {k t : Nat}
    (hb : 0 < b) (hk : k < b) (ht : t < b) (hB : poolBounds b p)
    (h1 : P1w b p) : P1w b (pool_t.deallocate b p (k * b + t)) := by
  obtain ⟨hlen, huw, hws⟩ := hB
  rw [pool_deallocate_eq p hb ht]
  intro k1 hk1 hbit
  by_cases hkk : k = k1
  · subst hkk
    rw [word] at *
    dsimp only at *
    rw [getD_set_eq _ _ _ _ (by rw [hlen]; exact hk)]
    exact set_bit_ne_zero _ _
  · rw [word] at *
    dsimp only at *
    rw [getD_set_ne _ _ _ hkk]
    refine h1 k1 hk1 ?_
    rw [test_bit] at hbit ⊢
    split at hbit
    · rw [set_bit_testBit] at hbit
      simp [hkk] at hbit
      exact hbit
    · exact hbit

theorem pool_deallocate_PFullFree {b : Nat} (p : pool_t) {k t : Nat}
    (hb : 0 < b) (hk : k < b) (ht : t < b) (hB : poolBounds b p)
    (h2 : PFullFree b p) :
    PFullFree b (pool_t.deallocate b p (k * b + t)) := by
  obtain ⟨hlen, huw, hws⟩ := hB
  rw [pool_deallocate_eq p hb ht]
  intro k1 hk1 hfull
  by_cases hkk : k = k1
  · subst hkk
    rw [word] at hfull
    dsimp only at hfull
    rw [getD_set_eq _ _ _ _ (by rw [hlen]; exact hk)] at hfull
    rw [test_bit]
    dsimp only
    rw [if_pos hfull, set_bit_testBit]
    simp
  · rw [word] at hfull
    dsimp only at hfull
    rw [getD_set_ne _ _ _ hkk] at hfull
    have := h2 k1 hk1 hfull
    rw [test_bit] at this ⊢
    dsimp only
    split
    · rw [set_bit_testBit, this]
      simp
    · exact this

/-! Closed form of an allocation-only run of one pool. -/

theorem pool_after_word {b j k : Nat} (hk : k < b) :
    word (pool_after b j) k =
      if k < j / b then 0
      else if k = j / b then 2 ^ b - 2 ^ (j % b)
      else 2 ^ b - 1 := by
  rw [word, pool_after]
  exact getD_range_map _ _ hk

theorem pool_after_zero {b : Nat} : pool_after b 0 = pool_t.init b := by
  rw [pool_after, pool_t.init, allMask]
  simp only [Nat.zero_div, Nat.zero_mod, Nat.pow_zero]
  refine congrArg _ ?_
  refine List.ext_getElem (by simp) ?_
  intro i h1 h2
  simp only [List.getElem_map, List.getElem_range, List.getElem_replicate]
  by_cases hi : i = 0 <;> simp [hi]

theorem pool_after_step {b j : Nat} (hb : 0 < b) (hj : j < b * b) :
    pool_t.allocate b (pool_after b j) = (j, pool_after b (j + 1)) := by
  have hq : j / b < b := Nat.div_lt_iff_lt_mul hb |>.mpr hj
  have hr : j % b < b := Nat.mod_lt _ hb
  have huw : (pool_after b j).unused_words = 2 ^ b - 2 ^ (j / b) := rfl
  have hctzuw : ctz (pool_after b j).unused_words = j / b := by
    rw [huw]; exact ctz_pow_sub_pow hq
  have hwq : word (pool_after b j) (j / b) = 2 ^ b - 2 ^ (j % b) := by
    rw [pool_after_word hq]; simp
  have hctzw : ctz (word (pool_after b j) (j / b)) = j % b := by
    rw [hwq]; exact ctz_pow_sub_pow hr
  have hclear : clear_bit b (2 ^ b - 2 ^ (j % b)) (j % b) = 2 ^ b - 2 ^ (j % b + 1) := by
    refine Nat.eq_of_testBit_eq ?_
    intro i
    rw [clear_bit_testBit _ _ (by
      have := Nat.pow_le_pow_right (n := 2) (by decide) (Nat.le_of_lt hr)
      have h2 : 0 < 2 ^ (j % b) := Nat.pos_pow_of_pos _ (by decide)
      omega : 2 ^ b - 2 ^ (j % b) < 2 ^ b)]
    rw [testBit_pow_sub_pow (Nat.le_of_lt hr), testBit_pow_sub_pow hr]
    rcases Nat.lt_trichotomy i (j % b) with h | h | h
    · simp [Nat.not_le.mpr h]; omega
    · subst h; simp
    · have h1 : j % b ≤ i := Nat.le_of_lt h
      have h2 : j % b + 1 ≤ i := h
      by_cases hib : i < b <;> simp [h1, h2, hib] <;> omega
  rw [word] at hwq
  simp only [pool_t.allocate]
  rw [hctzuw, hwq, ctz_pow_sub_pow hr, hclear]
  have hjdm : j / b * b + j % b = j := by
    rw [Nat.mul_comm]; exact Nat.div_add_mod j b
  rw [Prod.mk.injEq]
  refine ⟨hjdm, ?_⟩
  have hdm := Nat.div_add_mod j b
  by_cases hlast : j % b + 1 = b
  · have hz : 2 ^ b - 2 ^ (j % b + 1) = 0 := by rw [hlast]; omega
    have hsum : j + 1 = b * (j / b + 1) := by
      rw [Nat.mul_add, Nat.mul_one]; omega
    have hq1 : (j + 1) / b = j / b + 1 := by
      rw [hsum, Nat.mul_div_cancel_left _ hb]
    have hr1 : (j + 1) % b = 0 := by
      rw [hsum, Nat.mul_mod_right]
    rw [if_pos hz, hz]
    have hcuw : clear_bit b (2 ^ b - 2 ^ (j / b)) (j / b) = 2 ^ b - 2 ^ (j / b + 1) := by
      refine Nat.eq_of_testBit_eq ?_
      intro i
      rw [clear_bit_testBit _ _ (by
        have := Nat.pow_le_pow_right (n := 2) (by decide) (Nat.le_of_lt hq)
        have h2 : 0 < 2 ^ (j / b) := Nat.pos_pow_of_pos _ (by decide)
        omega : 2 ^ b - 2 ^ (j / b) < 2 ^ b)]
      rw [testBit_pow_sub_pow (Nat.le_of_lt hq), testBit_pow_sub_pow hq]
      rcases Nat.lt_trichotomy i (j / b) with h | h | h
      · simp [Nat.not_le.mpr h]; omega
      · subst h; simp
      · have h1 : j / b ≤ i := Nat.le_of_lt h
        have h2 : j / b + 1 ≤ i := h
        by_cases hib : i < b <;> simp [h1, h2, hib] <;> omega
    rw [huw, hcuw]
    conv_rhs => rw [pool_after]
    simp only [hq1, hr1]
    refine congrArg _ ?_
    refine List.ext_getElem (by simp [pool_after]) ?_
    intro i h1 h2
    simp only [pool_after, List.getElem_set, List.getElem_map, List.getElem_range]
    have hi : i < b := by simpa using h2
    rcases Nat.lt_trichotomy i (j / b) with h | h | h
    · have : j / b ≠ i := by omega
      simp [this, h, show i < j / b + 1 by omega]
    · subst h
      simp [show j / b < j / b + 1 by omega]
    · have : j / b ≠ i := by omega
      have h3 : ¬ i < j / b := by omega
      have h4 : ¬ i < j / b + 1 := by omega
      have h5 : i ≠ j / b := by omega
      by_cases h6 : i = j / b + 1
      · simp [this, h3, h4, h5, h6, hlast, Nat.pow_zero]
      · simp [this, h3, h4, h5, h6]
  · have hnz : 2 ^ b - 2 ^ (j % b + 1) ≠ 0 := by
      refine pow_sub_pow_ne_zero ?_
      omega
    have hsum : j + 1 = b * (j / b) + (j % b + 1) := by omega
    have hq1 : (j + 1) / b = j / b := by
      rw [hsum, Nat.mul_add_div hb]
      have hz0 : (j % b + 1) / b = 0 := Nat.div_eq_of_lt (by omega)
      rw [hz0, Nat.add_zero]
    have hr1 : (j + 1) % b = j % b + 1 := by
      rw [hsum, Nat.mul_add_mod]
      exact Nat.mod_eq_of_lt (by omega)
    rw [if_neg hnz, huw]
    conv_rhs => rw [pool_after]
    simp only [hq1, hr1]
    refine congrArg _ ?_
    refine List.ext_getElem (by simp [pool_after]) ?_
    intro i h1 h2
    simp only [pool_after, List.getElem_set, List.getElem_map, List.getElem_range]
    rcases Nat.lt_trichotomy i (j / b) with h | h | h
    · have : j / b ≠ i := by omega
      simp [this, h]
    · subst h
      simp
    · have : j / b ≠ i := by omega
      have h3 : ¬ i < j / b := by omega
      have h5 : i ≠ j / b := by omega
      simp [this, h3, h5]

theorem pool_allocN_closed {b : Nat} (hb : 0 < b) :
    ∀ j, j ≤ b * b → pool_allocN b j (pool_t.init b) = pool_after b j := by
  intro j
  induction j with
  | zero => intro _; rw [pool_allocN, pool_after_zero]
  | succ j ih =>
    intro hj
    rw [pool_allocN, ih (by omega), pool_after_step hb (by omega)]

theorem pool_allocN_index {b j : Nat} (hb : 0 < b) (hj : j < b * b) :
    (pool_t.allocate b (pool_allocN b j (pool_t.init b))).1 = j := by
  rw [pool_allocN_closed hb j (by omega), pool_after_step hb hj]

/-! Invariants of single-pool traces. -/

theorem slot_index_lt {b k s : Nat} (hk : k < b) (hs : s < b) :
    k * b + s < b * b := by
  have h1 : k * b + s < (k + 1) * b := by
    rw [Nat.add_one_mul]; omega
  have h2 : (k + 1) * b ≤ b * b := Nat.mul_le_mul_right _ (by omega)
  omega

theorem pool_init_inv {b : Nat} (hb : 0 < b) :
    poolTraceInv b (pool_t.init b, []) := by
  refine ⟨⟨?_, ?_, ?_⟩, ?_, ?_, ?_⟩
  · simp [pool_t.init]
  · exact allMask_lt b
  · intro w hw
    rw [pool_t.init] at hw
    rw [List.eq_of_mem_replicate hw]
    exact allMask_lt b
  · intro k hk _
    rw [word, pool_t.init]
    dsimp only
    rw [getD_replicate _ _ hk]
    exact allMask_ne_zero hb
  · intro k hk _
    rw [test_bit, pool_t.init]
    dsimp only
    rw [allMask_testBit]
    simp [hk]
  · intro i hi
    simp at hi

theorem pool_alloc_word_safe {b : Nat} {p : pool_t} (hB : poolBounds b p)
    (h1 : P1w b p) (huw : p.unused_words ≠ 0) :
    word p (ctz p.unused_words) ≠ 0 :=
  h1 (ctz p.unused_words) (ctz_lt huw hB.2.1) (ctz_testBit _ huw)

theorem pool_step_inv {b : Nat} (hb : 0 < b) {st st1 : pool_t × List Nat}
    {op : PoolOp} (hI : poolTraceInv b st) (h : pool_step b st op = some st1) :
    poolTraceInv b st1 := by
  obtain ⟨hB, h1, h2, hlive⟩ := hI
  cases op with
  | alloc =>
    rw [pool_step] at h
    split at h
    · exact Option.noConfusion h
    · rename_i hfull
      rw [Bool.not_eq_true] at hfull
      have huw : st.1.unused_words ≠ 0 := (pool_full_false_iff st.1).mp hfull
      have hword := pool_alloc_word_safe hB h1 huw
      have hk : ctz st.1.unused_words < b := ctz_lt huw hB.2.1
      have hs : ctz (word st.1 (ctz st.1.unused_words)) < b :=
        ctz_lt hword (word_lt hB.2.2 _)
      rw [Option.some_inj] at h
      subst h
      refine ⟨pool_allocate_bounds _ hB, pool_allocate_P1w _ hB h1,
        pool_allocate_PFullFree _ hb hB h2, ?_⟩
      intro i hi
      rcases List.mem_cons.mp hi with hi0 | hmem
      · rw [hi0, pool_allocate_index]
        exact slot_index_lt hk hs
      · exact hlive i hmem
  | dealloc i =>
    rw [pool_step] at h
    split at h
    · rename_i hmem
      rw [Option.some_inj] at h
      subst h
      have hib : i < b * b := hlive i hmem
      have hk : i / b < b := Nat.div_lt_iff_lt_mul hb |>.mpr hib
      have ht : i % b < b := Nat.mod_lt _ hb
      have hi : i = i / b * b + i % b := by
        rw [Nat.mul_comm]
        exact (Nat.div_add_mod i b).symm
      refine ⟨?_, ?_, ?_, ?_⟩
      · rw [hi]; exact pool_deallocate_bounds _ hb hk ht hB
      · rw [hi]; exact pool_deallocate_P1w _ hb hk ht hB h1
      · rw [hi]; exact pool_deallocate_PFullFree _ hb hk ht hB h2
      · intro x hx
        exact hlive x (List.mem_of_mem_erase hx)
    · exact Option.noConfusion h

theorem pool_foldl_inv {b : Nat} (hb : 0 < b) :
    ∀ (ops : List PoolOp) (st0 st : pool_t × List Nat),
      poolTraceInv b st0 →
      List.foldlM (pool_step b) st0 ops = some st → poolTraceInv b st := by
  intro ops
  induction ops with
  | nil =>
    intro st0 st h0 h
    rw [List.foldlM_nil] at h
    have : st0 = st := Option.some_inj.mp h
    exact this ▸ h0
  | cons op ops ih =>
    intro st0 st h0 h
    rw [List.foldlM_cons] at h
    cases hstep : pool_step b st0 op with
    | none => rw [hstep] at h; exact Option.noConfusion h
    | some st1 =>
      rw [hstep] at h
      exact ih st1 st (pool_step_inv hb h0 hstep) h

theorem pool_run_inv {b : Nat} (hb : 0 < b) {ops : List PoolOp}
    {st : pool_t × List Nat} (h : pool_run b ops = some st) :
    poolTraceInv b st :=
  pool_foldl_inv hb ops _ st (pool_init_inv hb) h

/-! Claim C1. -/

/-- Claim C1: for every pool state with full() false (and a sound outer
bitmap, which the C++ requires for ctz to be defined), allocate()
returns the slot index k * b + s where k is the lowest set bit of
unused_words and s the lowest set bit of unallocated_slots[k]; it
clears bit s of unallocated_slots[k] and touches no other slot bit, and
it clears bit k of unused_words if and only if that word became zero,
touching no other unused_words bit. -/
theorem claim_C1 {b : Nat} (p : pool_t) (k s : Nat) (hb : 0 < b)
    (hB : poolBounds b p) (hfull : p.full = false)
    (hsafe : word p (ctz p.unused_words) ≠ 0)
    (hk : k = ctz p.unused_words) (hs : s = ctz (word p k)) :
    (test_bit p.unused_words k = true ∧
      ∀ j < k, test_bit p.unused_words j = false) ∧
    (test_bit (word p k) s = true ∧
      ∀ j < s, test_bit (word p k) j = false) ∧
    (pool_t.allocate b p).1 = k * b + s ∧
    test_bit (word (pool_t.allocate b p).2 k) s = false ∧
    (∀ j, j ≠ s → test_bit (word (pool_t.allocate b p).2 k) j =
      test_bit (word p k) j) ∧
    (∀ k1, k1 ≠ k → word (pool_t.allocate b p).2 k1 = word p k1) ∧
    (test_bit (pool_t.allocate b p).2.unused_words k = false ↔
      word (pool_t.allocate b p).2 k = 0) ∧
    (∀ k1, k1 ≠ k → test_bit (pool_t.allocate b p).2.unused_words k1 =
      test_bit p.unused_words k1) := by
  obtain ⟨hlen, huwlt, hws⟩ := hB
  have huw : p.unused_words ≠ 0 := (pool_full_false_iff p).mp hfull
  subst hk
  subst hs
  have hklt : ctz p.unused_words < b := ctz_lt huw huwlt
  have hwlt : word p (ctz p.unused_words) < 2 ^ b := word_lt hws _
  have hweq := pool_allocate_word_eq p hlen hklt
  refine ⟨⟨?_, ?_⟩, ⟨?_, ?_⟩, ?_, ?_, ?_, ?_, ?_, ?_⟩
  · exact ctz_testBit _ huw
  · intro j hj; exact ctz_min _ j hj
  · exact ctz_testBit _ hsafe
  · intro j hj; exact ctz_min _ j hj
  · rw [pool_allocate_index]
  · rw [test_bit, hweq, clear_bit_testBit _ _ hwlt]
    simp
  · intro j hj
    rw [test_bit, test_bit, hweq, clear_bit_testBit _ _ hwlt]
    have hne : ctz (word p (ctz p.unused_words)) ≠ j := fun h => hj h.symm
    simp [hne]
  · intro k1 hk1
    exact pool_allocate_word_ne p fun h => hk1 h.symm
  · rw [test_bit, pool_allocate_uw, hweq]
    by_cases hcond : clear_bit b (word p (ctz p.unused_words))
        (ctz (word p (ctz p.unused_words))) = 0
    · rw [if_pos hcond, clear_bit_testBit _ _ huwlt]
      simp [hcond]
    · rw [if_neg hcond, ctz_testBit _ huw]
      simp [hcond]
  · intro k1 hk1
    rw [test_bit, test_bit]
    exact pool_allocate_uw_testBit p huwlt fun h => hk1 h.symm

/-- Witness for claim C1 at the fresh u8-word pool (b = 8): the first
allocation takes bucket 0, slot 0. -/
theorem claim_C1_witness :
    0 < 8 ∧ poolBounds 8 (pool_t.init 8) ∧ (pool_t.init 8).full = false ∧
      word (pool_t.init 8) (ctz (pool_t.init 8).unused_words) ≠ 0 ∧
      (pool_t.allocate 8 (pool_t.init 8)).1 = 0 * 8 + 0 :=
  ⟨by decide, by decide, by decide, by decide,
    (claim_C1 (pool_t.init 8) 0 0 (by decide) (by decide) (by decide)
      (by decide) (by decide) (by decide)).2.2.1⟩

/-! Claim C2. -/

/-- Counterexample to claim C2: the pool state reached from init() by
eight allocations (filling bucket 0 at word width b = 8, the uint8_t
instantiation) followed by one deallocation of slot 0 is reachable with
every precondition respected, yet violates invariant P1: bit 0 of
unused_words is clear while unallocated_slots[0] = 1 ≠ 0, because
pool_t::deallocate re-sets the unused_words bit only when the word
becomes all-ones. -/
theorem claim_C2_counterexample :
    pool_run 8 (List.replicate 8 PoolOp.alloc ++ [PoolOp.dealloc 0]) =
      some (⟨254, [1, 255, 255, 255, 255, 255, 255, 255]⟩,
        [7, 6, 5, 4, 3, 2, 1]) ∧
    ¬ P1 8 ⟨254, [1, 255, 255, 255, 255, 255, 255, 255]⟩ := by
  constructor
  · decide
  · decide

/-- Amended claim C2: along every precondition-respecting single-pool
trace, P3 holds (full() is true exactly when unused_words is zero) and
the forward direction of P1 holds: a set bit of unused_words points at
a nonzero word.  The converse direction of P1 is false (see the
counterexample). -/
theorem claim_C2_amended {b : Nat} (hb : 0 < b) {ops : List PoolOp}
    {p : pool_t} {live : List Nat} (h : pool_run b ops = some (p, live)) :
    (p.full = true ↔ p.unused_words = 0) ∧ P1w b p := by
  have hI := pool_run_inv hb h
  exact ⟨pool_full_iff p, hI.2.1⟩

/-- Witness for the amended claim C2 at the empty trace. -/
theorem claim_C2_amended_witness :
    0 < 8 ∧ pool_run 8 [] = some (pool_t.init 8, []) ∧
      (((pool_t.init 8).full = true ↔ (pool_t.init 8).unused_words = 0) ∧
        P1w 8 (pool_t.init 8)) :=
  ⟨by decide, by decide,
    @claim_C2_amended 8 (by decide) [] (pool_t.init 8) [] (by decide)⟩

/-! Claim C7. -/

/-- Claim C7: a fresh pool satisfies exactly b * b consecutive
allocations: full() is false before each of the first b * b calls and
true immediately after the b * b-th. -/
theorem claim_C7 {b : Nat} (hb : 0 < b) :
    (∀ j < b * b, (pool_allocN b j (pool_t.init b)).full = false) ∧
      (pool_allocN b (b * b) (pool_t.init b)).full = true := by
  constructor
  · intro j hj
    rw [pool_allocN_closed hb j (Nat.le_of_lt hj), pool_full_false_iff]
    show 2 ^ b - 2 ^ (j / b) ≠ 0
    exact pow_sub_pow_ne_zero (Nat.div_lt_iff_lt_mul hb |>.mpr hj)
  · rw [pool_allocN_closed hb _ (Nat.le_refl _), pool_full_iff]
    show 2 ^ b - 2 ^ (b * b / b) = 0
    rw [Nat.mul_div_cancel _ hb]
    omega

/-- Witness for claim C7 at b = 8 (the uint8_t instantiation, capacity
64). -/
theorem claim_C7_witness :
    0 < 8 ∧ ((∀ j < 8 * 8, (pool_allocN 8 j (pool_t.init 8)).full = false) ∧
      (pool_allocN 8 (8 * 8) (pool_t.init 8)).full = true) :=
  ⟨by decide, claim_C7 (by decide)⟩

/-! Structure of the allocation and deallocation scans. -/

theorem sel_block_none_iff : ∀ l : List block_t,
    sel_block l = none ↔ ∀ blk ∈ l, blk.unmaxed_pools = 0 := by
  intro l
  induction l with
  | nil => simp [sel_block]
  | cons blk rest ih =>
    rw [sel_block]
    cases hsel : sel_block rest with
    | some x =>
      simp only [hsel]
      constructor
      · intro h; exact Option.noConfusion h
      · intro h
        have : ∀ c ∈ rest, c.unmaxed_pools = 0 := fun c hc => h c (by simp [hc])
        rw [ih.mpr this] at hsel
        exact Option.noConfusion hsel
    | none =>
      simp only [hsel]
      by_cases hz : blk.unmaxed_pools ≠ 0
      · rw [if_pos hz]
        constructor
        · intro h; exact Option.noConfusion h
        · intro h; exact absurd (h blk (by simp)) hz
      · rw [if_neg hz]
        rw [Decidable.not_not] at hz
        constructor
        · intro _ c hc
          rcases List.mem_cons.mp hc with h | h
          · rw [h]; exact hz
          · exact ih.mp hsel c h
        · intro _; rfl

theorem alloc_scan_none_of {g : geo_t} : ∀ l : List block_t,
    (∀ blk ∈ l, blk.unmaxed_pools = 0) → alloc_scan g l = none := by
  intro l
  induction l with
  | nil => intro _; rfl
  | cons blk rest ih =>
    intro h
    rw [alloc_scan]
    rw [ih fun c hc => h c (by simp [hc])]
    have : blk.unmaxed_pools = 0 := h blk (by simp)
    simp [this]

theorem alloc_scan_sel {g : geo_t} : ∀ (l : List block_t) (blk : block_t),
    sel_block l = some blk →
    ∃ l2 l3, l = l2 ++ blk :: l3 ∧ (∀ c ∈ l3, c.unmaxed_pools = 0) ∧
      blk.unmaxed_pools ≠ 0 ∧
      alloc_scan g l = some ((blk_alloc g blk).1, l2 ++ (blk_alloc g blk).2 :: l3) := by
  intro l
  induction l with
  | nil => intro blk h; exact Option.noConfusion h
  | cons blk0 rest ih =>
    intro blk h
    rw [sel_block] at h
    cases hsel : sel_block rest with
    | some x =>
      rw [hsel] at h
      have hx : x = blk := Option.some_inj.mp h
      subst hx
      obtain ⟨l2, l3, hdec, hzero, hnz, hscan⟩ := ih x hsel
      refine ⟨blk0 :: l2, l3, by rw [hdec]; rfl, hzero, hnz, ?_⟩
      rw [alloc_scan, hscan]
      rfl
    | none =>
      rw [hsel] at h
      by_cases hz : blk0.unmaxed_pools ≠ 0
      · rw [if_pos hz] at h
        have hx : blk0 = blk := Option.some_inj.mp h
        subst hx
        refine ⟨[], rest, rfl, (sel_block_none_iff rest).mp hsel, hz, ?_⟩
        rw [alloc_scan, alloc_scan_none_of rest ((sel_block_none_iff rest).mp hsel)]
        simp [hz]
      · rw [if_neg hz] at h
        exact Option.noConfusion h

theorem mp_allocate_sel {g : geo_t} {s : multi_pool_t} {blk : block_t}
    (n : Nat) (m : Option Nat) (h : sel_block s.memory_blocks = some blk) :
    ∃ l2 l3, s.memory_blocks = l2 ++ blk :: l3 ∧
      (∀ c ∈ l3, c.unmaxed_pools = 0) ∧ blk.unmaxed_pools ≠ 0 ∧
      multi_pool_t.allocate g n m s =
        ((blk_alloc g blk).1, ⟨l2 ++ (blk_alloc g blk).2 :: l3⟩) := by
  obtain ⟨l2, l3, hdec, hzero, hnz, hscan⟩ := alloc_scan_sel s.memory_blocks blk h
  refine ⟨l2, l3, hdec, hzero, hnz, ?_⟩
  rw [multi_pool_t.allocate, hscan]

theorem mp_allocate_grow {g : geo_t} {s : multi_pool_t}
    (hb : 0 < g.b) (n : Nat) (m : Option Nat)
    (h : ∀ blk ∈ s.memory_blocks, blk.unmaxed_pools = 0) :
    multi_pool_t.allocate g n m s =
      (slot_addr g (m.getD 0) 0 0,
       ⟨s.memory_blocks ++ [⟨m.getD 0, allMask g.b,
         (List.replicate g.b (pool_t.init g.b)).set 0
           (pool_t.allocate g.b (pool_t.init g.b)).2⟩]⟩) := by
  have hGetD : (List.replicate g.b (pool_t.init g.b)).getD 0 poolDefault =
      pool_t.init g.b := getD_replicate _ _ hb
  have hidx : (pool_t.allocate g.b (pool_t.init g.b)).1 = 0 := by
    rw [pool_allocate_index]
    have h1 : ctz (pool_t.init g.b).unused_words = 0 := ctz_allMask hb
    rw [h1]
    have h2 : word (pool_t.init g.b) 0 = allMask g.b := by
      rw [word, pool_t.init]
      exact getD_replicate _ _ hb
    rw [h2, ctz_allMask hb]
    omega
  rw [multi_pool_t.allocate, alloc_scan_none_of _ h]
  simp only [multi_pool_t.new_block, List.getLastD_concat, List.dropLast_concat,
    hGetD, hidx]

theorem dealloc_scan_none_of {g : geo_t} {ptr : Nat} : ∀ l : List block_t,
    (∀ blk ∈ l, ¬ dealloc_pool_idx g ptr blk.ptr < g.b) →
    dealloc_scan g ptr l = none := by
  intro l
  induction l with
  | nil => intro _; rfl
  | cons blk rest ih =>
    intro h
    rw [dealloc_scan, ih fun c hc => h c (by simp [hc])]
    simp [h blk (by simp)]

theorem dealloc_scan_hit {g : geo_t} {ptr : Nat} {blk : block_t}
    {l3 : List block_t}
    (hmiss : ∀ c ∈ l3, ¬ dealloc_pool_idx g ptr c.ptr < g.b)
    (hhit : dealloc_pool_idx g ptr blk.ptr < g.b) :
    ∀ l2 : List block_t, dealloc_scan g ptr (l2 ++ blk :: l3) =
      some (l2 ++ blk_dealloc g ptr blk :: l3) := by
  intro l2
  induction l2 with
  | nil =>
    rw [List.nil_append, dealloc_scan, dealloc_scan_none_of l3 hmiss]
    simp [hhit]
  | cons c l2 ih =>
    rw [List.cons_append, dealloc_scan, ih]
    rfl

theorem mp_deallocate_hit {g : geo_t} {ptr : Nat} {blk : block_t}
    {l2 l3 : List block_t} (n : Nat)
    (hmiss : ∀ c ∈ l3, ¬ dealloc_pool_idx g ptr c.ptr < g.b)
    (hhit : dealloc_pool_idx g ptr blk.ptr < g.b) :
    multi_pool_t.deallocate g ptr n ⟨l2 ++ blk :: l3⟩ =
      ⟨l2 ++ blk_dealloc g ptr blk :: l3⟩ := by
  rw [multi_pool_t.deallocate]
  rw [dealloc_scan_hit hmiss hhit l2]

/-! Address arithmetic: the deallocation scan recovers the owning pool
and slot from a slot address, and rejects every other block. -/

theorem data_off_lt {g : geo_t} (hg : geo_ok g) {idx : Nat}
    (hidx : idx < g.b * g.b) : g.D + idx * g.E < g.S := by
  obtain ⟨hb, hE, hS, hDS, h32⟩ := hg
  have h1 : idx + 1 ≤ g.b * g.b := hidx
  have h2 : (idx + 1) * g.E ≤ g.b * g.b * g.E := Nat.mul_le_mul_right _ h1
  rw [Nat.add_one_mul] at h2
  omega

theorem slot_off_lt {g : geo_t} (hg : geo_ok g) {i idx : Nat}
    (hi : i < g.b) (hidx : idx < g.b * g.b) :
    i * g.S + (g.D + idx * g.E) < g.b * g.S := by
  have h1 := data_off_lt hg hidx
  have h2 : (i + 1) * g.S ≤ g.b * g.S := Nat.mul_le_mul_right _ hi
  rw [Nat.add_one_mul] at h2
  omega

theorem emod_pow64_toNat {a c : Nat} (ha : a < 2 ^ 64) (hc : c < 2 ^ 64) :
    (((a : Int) - (c : Int)) % (2 ^ 64)).toNat =
      if c ≤ a then a - c else 2 ^ 64 + a - c := by
  by_cases h : c ≤ a
  · rw [if_pos h]
    rw [show ((a : Int)) - (c : Int) = ((a - c : Nat) : Int) from by
      rw [Nat.cast_sub h]]
    rw [Int.emod_eq_of_lt (Int.natCast_nonneg _) (by
      exact_mod_cast (by omega : a - c < 2 ^ 64))]
    rw [Int.toNat_ofNat]
  · rw [if_neg h]
    have h1 : ((a : Int)) - (c : Int) =
        ((2 ^ 64 + a - c : Nat) : Int) + (2 ^ 64) * (-1) := by
      rw [Nat.cast_sub (by omega : c ≤ 2 ^ 64 + a)]
      push_cast
      ring
    rw [h1, Int.add_mul_emod_self_left]
    rw [Int.emod_eq_of_lt (Int.natCast_nonneg _) (by
      exact_mod_cast (by omega : 2 ^ 64 + a - c < 2 ^ 64))]
    rw [Int.toNat_ofNat]

theorem dealloc_pool_idx_eval {g : geo_t} {ptr base : Nat}
    (hptr : ptr < 2 ^ 64) (hbase : base < 2 ^ 64) :
    dealloc_pool_idx g ptr base =
      (if base ≤ ptr then ptr - base else 2 ^ 64 + ptr - base) / g.S := by
  rw [dealloc_pool_idx, emod_pow64_toNat hptr hbase]

theorem dealloc_pool_idx_owner {g : geo_t} (hg : geo_ok g) {base i idx : Nat}
    (hfit : block_fits g base = true) (hi : i < g.b) (hidx : idx < g.b * g.b) :
    dealloc_pool_idx g (slot_addr g base i idx) base = i := by
  have hS : 0 < g.S := hg.2.2.1
  have hoff := slot_off_lt hg hi hidx
  rw [block_fits, decide_eq_true_eq] at hfit
  have hbase : base < 2 ^ 64 := by
    have := Nat.mul_le_mul_right g.S (Nat.one_le_iff_ne_zero.mpr
      (by omega : g.b ≠ 0))
    omega
  have hptr : slot_addr g base i idx < 2 ^ 64 := by
    rw [slot_addr]; omega
  rw [dealloc_pool_idx_eval hptr hbase, slot_addr]
  rw [if_pos (by omega)]
  rw [show base + i * g.S + g.D + idx * g.E - base =
    g.S * i + (g.D + idx * g.E) from by rw [Nat.mul_comm]; omega]
  rw [Nat.mul_add_div hS, Nat.div_eq_of_lt (data_off_lt hg hidx), Nat.add_zero]

theorem dealloc_index_owner {g : geo_t} (hg : geo_ok g) {base i idx : Nat}
    (hidx : idx < g.b * g.b) :
    dealloc_index g (slot_addr g base i idx) base i = idx := by
  have hE : 0 < g.E := hg.2.1
  rw [dealloc_index, slot_addr]
  have hcast : ((base + i * g.S + g.D + idx * g.E : Nat) : Int) -
      ((base + i * g.S + g.D : Nat) : Int) = ((idx : Int)) * ((g.E : Int)) := by
    push_cast
    ring
  rw [hcast]
  rw [Int.mul_ediv_cancel _ (by
    exact_mod_cast hE.ne' : ((g.E : Int)) ≠ 0)]
  rw [Int.emod_eq_of_lt (Int.natCast_nonneg _) (by
    exact_mod_cast lt_of_lt_of_le hidx hg.2.2.2.2)]
  rw [Int.toNat_ofNat]

theorem dealloc_pool_idx_miss {g : geo_t} (hg : geo_ok g) {base c i idx : Nat}
    (hfitb : block_fits g base = true) (hfitc : block_fits g c = true)
    (hdisj : ranges_disjoint g base c = true) (hi : i < g.b)
    (hidx : idx < g.b * g.b) :
    ¬ dealloc_pool_idx g (slot_addr g c i idx) base < g.b := by
  have hS : 0 < g.S := hg.2.2.1
  have hoff := slot_off_lt hg hi hidx
  rw [block_fits, decide_eq_true_eq] at hfitb hfitc
  rw [ranges_disjoint, decide_eq_true_eq] at hdisj
  have hbase : base < 2 ^ 64 := by
    have := Nat.mul_le_mul_right g.S (Nat.one_le_iff_ne_zero.mpr
      (by omega : g.b ≠ 0))
    omega
  have hptr : slot_addr g c i idx < 2 ^ 64 := by
    rw [slot_addr]; omega
  rw [dealloc_pool_idx_eval hptr hbase, slot_addr]
  intro hlt
  have hkey : ∀ u : Nat, g.b * g.S ≤ u → ¬ u / g.S < g.b := by
    intro u hu hcon
    have := (Nat.le_div_iff_mul_le hS).mpr hu
    omega
  rcases hdisj with hcb | hbc
  · -- base + b * S ≤ c : the pointer lies above this block's range
    have hle : base ≤ c + i * g.S + g.D + idx * g.E := by omega
    rw [if_pos hle] at hlt
    exact hkey _ (by omega) hlt
  · -- c + b * S ≤ base : the pointer lies below this block's range
    have hlt0 : c + i * g.S + g.D + idx * g.E < base := by omega
    rw [if_neg (by omega)] at hlt
    exact hkey _ (by omega) hlt

/-! Access helpers for block lists. -/

theorem middle_as_set {α : Type} : ∀ (l2 : List α) (l3 : List α) (x y : α),
    l2 ++ x :: l3 = (l2 ++ y :: l3).set l2.length x := by
  intro l2
  induction l2 with
  | nil => intro l3 x y; rfl
  | cons a l2 ih =>
    intro l3 x y
    simp only [List.cons_append, List.length_cons, List.set_cons_succ]
    rw [← ih]

theorem getD_append_left {α : Type} (l2 l3 : List α) {j : Nat} (d : α)
    (h : j < l2.length) : (l2 ++ l3).getD j d = l2.getD j d := by
  simp [List.getD_eq_getElem?_getD, List.getElem?_append_left h]

theorem getD_middle {α : Type} (l2 l3 : List α) (x d : α) :
    (l2 ++ x :: l3).getD l2.length d = x := by
  rw [middle_as_set l2 l3 x x]
  exact getD_set_eq _ _ _ _ (by simp)

theorem blockInv_getD {g : geo_t} {s : multi_pool_t} (hM : MPInv g s)
    {j : Nat} (hj : j < s.memory_blocks.length) :
    blockInv g (s.memory_blocks.getD j blockDefault) := by
  refine hM.1 _ ?_
  rw [List.getD_eq_getElem _ _ hj]
  exact List.getElem_mem hj

theorem ranges_disjoint_symm {g : geo_t} {a c : Nat}
    (h : ranges_disjoint g a c = true) : ranges_disjoint g c a = true := by
  rw [ranges_disjoint, decide_eq_true_eq] at h ⊢
  omega

theorem sep_disjoint {g : geo_t} {s : multi_pool_t} (hM : MPInv g s)
    {j j' : Nat} (hj : j < s.memory_blocks.length)
    (hj' : j' < s.memory_blocks.length) (hne : j ≠ j') :
    ranges_disjoint g (s.memory_blocks.getD j blockDefault).ptr
      (s.memory_blocks.getD j' blockDefault).ptr = true := by
  have hsep := hM.2
  rw [sepInv, List.pairwise_iff_getElem] at hsep
  rw [List.getD_eq_getElem _ _ hj, List.getD_eq_getElem _ _ hj']
  rcases Nat.lt_or_ge j j' with h | h
  · have := hsep j j' (by simpa using hj) (by simpa using hj') h
    simpa using this
  · have hlt : j' < j := by omega
    have := hsep j' j (by simpa using hj') (by simpa using hj) hlt
    exact ranges_disjoint_symm (by simpa using this)

theorem live_addr_inj {g : geo_t} {s : multi_pool_t} (hg : geo_ok g)
    (hM : MPInv g s) {j i k t j1 i1 k1 t1 : Nat}
    (hj : j < s.memory_blocks.length) (hi : i < g.b) (hk : k < g.b)
    (ht : t < g.b) (hj1 : j1 < s.memory_blocks.length) (hi1 : i1 < g.b)
    (hk1 : k1 < g.b) (ht1 : t1 < g.b)
    (heq : live_addr g s j i k t = live_addr g s j1 i1 k1 t1) :
    j = j1 ∧ i = i1 ∧ k = k1 ∧ t = t1 := by
  have hfit : block_fits g (s.memory_blocks.getD j blockDefault).ptr = true :=
    (blockInv_getD hM hj).2.2.1
  have hfit1 : block_fits g (s.memory_blocks.getD j1 blockDefault).ptr = true :=
    (blockInv_getD hM hj1).2.2.1
  have hidx : k * g.b + t < g.b * g.b := slot_index_lt hk ht
  have hidx1 : k1 * g.b + t1 < g.b * g.b := slot_index_lt hk1 ht1
  have hjj : j = j1 := by
    by_contra hne
    have hdisj := sep_disjoint hM hj1 hj (fun h => hne h.symm)
    have hmiss := dealloc_pool_idx_miss hg hfit1 hfit hdisj hi hidx
    rw [live_addr, live_addr] at heq
    rw [heq] at hmiss
    exact hmiss (by
      rw [dealloc_pool_idx_owner hg hfit1 hi1 hidx1]
      exact hi1)
  subst hjj
  rw [live_addr, live_addr] at heq
  have hii : i = i1 := by
    have h1 := dealloc_pool_idx_owner hg hfit hi hidx
    have h2 := dealloc_pool_idx_owner hg hfit hi1 hidx1
    rw [heq] at h1
    omega
  subst hii
  have hkk : k * g.b + t = k1 * g.b + t1 := by
    have h1 := @dealloc_index_owner g hg
      (s.memory_blocks.getD j blockDefault).ptr i (k * g.b + t) hidx
    have h2 := @dealloc_index_owner g hg
      (s.memory_blocks.getD j blockDefault).ptr i (k1 * g.b + t1) hidx1
    rw [heq] at h1
    omega
  have e1 : (k * g.b + t) / g.b = k := by
    rw [Nat.mul_comm k g.b, Nat.mul_add_div (by omega), Nat.div_eq_of_lt ht,
      Nat.add_zero]
  have e2 : (k1 * g.b + t1) / g.b = k1 := by
    rw [Nat.mul_comm k1 g.b, Nat.mul_add_div (by omega), Nat.div_eq_of_lt ht1,
      Nat.add_zero]
  have hkeq : k = k1 := by rw [← e1, ← e2, hkk]
  subst hkeq
  have hteq : t = t1 := by omega
  exact ⟨rfl, rfl, rfl, hteq⟩

theorem decomp_at {α : Type} (l : List α) {j : Nat} (h : j < l.length) (d : α) :
    l = l.take j ++ l.getD j d :: l.drop (j + 1) := by
  rw [List.getD_eq_getElem _ _ h]
  conv_lhs => rw [← List.take_append_drop j l]
  congr 1
  rw [List.drop_eq_getElem_cons h]

theorem set_decomp {α : Type} (l : List α) {j : Nat} (h : j < l.length)
    (x d : α) : l.set j x = l.take j ++ x :: l.drop (j + 1) := by
  conv_lhs => rw [decomp_at l h d]
  rw [middle_as_set (l.take j) (l.drop (j + 1)) x (l.getD j d)]
  congr 2
  rw [List.length_take]
  omega

/-- Where multi_pool_t::deallocate sends a live pointer: the scan finds
exactly the owning block and pool, sets the unmaxed_pools bit of the
owning pool index, and delegates the slot index to that pool; every
other block is left untouched. -/
theorem mp_deallocate_spec {g : geo_t} {s : multi_pool_t} {live : List Nat}
    {ptr : Nat} (hg : geo_ok g) (hI : MPTraceInv g (s, live))
    (hmem : ptr ∈ live) (n : Nat) :
    ∃ j i k t, j < s.memory_blocks.length ∧ i < g.b ∧ k < g.b ∧ t < g.b ∧
      ptr = live_addr g s j i k t ∧ slotFree s j i k t = false ∧
      dealloc_pool_idx g ptr (s.memory_blocks.getD j blockDefault).ptr = i ∧
      dealloc_index g ptr (s.memory_blocks.getD j blockDefault).ptr i =
        k * g.b + t ∧
      multi_pool_t.deallocate g ptr n s =
        ⟨s.memory_blocks.set j
          ⟨(s.memory_blocks.getD j blockDefault).ptr,
           set_bit (s.memory_blocks.getD j blockDefault).unmaxed_pools i,
           (s.memory_blocks.getD j blockDefault).pools.set i
             (pool_t.deallocate g.b
               ((s.memory_blocks.getD j blockDefault).pools.getD i poolDefault)
               (k * g.b + t))⟩⟩ := by
  obtain ⟨hM, hL⟩ := hI
  obtain ⟨j, i, k, t, hj, hi, hk, ht, hptr, hfree⟩ := hL.1 ptr hmem
  have hfit : block_fits g (s.memory_blocks.getD j blockDefault).ptr = true :=
    (blockInv_getD hM hj).2.2.1
  have hidx : k * g.b + t < g.b * g.b := slot_index_lt hk ht
  have howner : dealloc_pool_idx g ptr
      (s.memory_blocks.getD j blockDefault).ptr = i := by
    rw [hptr, live_addr]
    exact dealloc_pool_idx_owner hg hfit hi hidx
  have hindex : dealloc_index g ptr
      (s.memory_blocks.getD j blockDefault).ptr i = k * g.b + t := by
    rw [hptr, live_addr]
    exact dealloc_index_owner hg hidx
  have hmiss : ∀ c ∈ s.memory_blocks.drop (j + 1),
      ¬ dealloc_pool_idx g ptr c.ptr < g.b := by
    intro c hc
    obtain ⟨k1, hk1, hck⟩ := List.getElem_of_mem hc
    rw [List.getElem_drop] at hck
    have hj1 : j + 1 + k1 < s.memory_blocks.length := by
      rw [List.length_drop] at hk1
      omega
    have hcD : c = s.memory_blocks.getD (j + 1 + k1) blockDefault := by
      rw [List.getD_eq_getElem _ _ hj1, hck]
    have hfitc : block_fits g c.ptr = true := by
      rw [hcD]
      exact (blockInv_getD hM hj1).2.2.1
    have hdisj : ranges_disjoint g c.ptr
        (s.memory_blocks.getD j blockDefault).ptr = true := by
      rw [hcD]
      exact sep_disjoint hM hj1 hj (by omega)
    rw [hptr, live_addr]
    exact dealloc_pool_idx_miss hg hfitc hfit hdisj hi hidx
  refine ⟨j, i, k, t, hj, hi, hk, ht, hptr, hfree, howner, hindex, ?_⟩
  have hdec := decomp_at s.memory_blocks hj blockDefault
  calc multi_pool_t.deallocate g ptr n s
      = multi_pool_t.deallocate g ptr n ⟨s.memory_blocks.take j ++
          s.memory_blocks.getD j blockDefault ::
          s.memory_blocks.drop (j + 1)⟩ := by
        conv_lhs => rw [show s = (⟨s.memory_blocks⟩ : multi_pool_t) from rfl, hdec]
    _ = ⟨s.memory_blocks.take j ++
          blk_dealloc g ptr (s.memory_blocks.getD j blockDefault) ::
          s.memory_blocks.drop (j + 1)⟩ := by
        exact mp_deallocate_hit n hmiss (by rw [howner]; exact hi)
    _ = _ := by
        rw [← set_decomp s.memory_blocks hj _ blockDefault]
        rw [blk_dealloc, howner, hindex]

theorem set_getD_self {α : Type} (l : List α) (j : Nat) (d : α) :
    l.set j (l.getD j d) = l := by
  refine List.ext_getElem (by simp) ?_
  intro n h1 h2
  rw [List.getElem_set]
  split
  · rename_i hjn
    subst hjn
    rw [List.getD_eq_getElem _ _ h2]
  · rfl

theorem getD_mem_of_lt {α : Type} {l : List α} {j : Nat} (h : j < l.length)
    (d : α) : l.getD j d ∈ l := by
  rw [List.getD_eq_getElem _ _ h]
  exact List.getElem_mem h

/-- Preservation of the trace invariant by one deallocation of a live
pointer. -/
theorem mp_dealloc_inv {g : geo_t} {s : multi_pool_t} {live : List Nat}
    {ptr : Nat} (hg : geo_ok g) (hI : MPTraceInv g (s, live))
    (hmem : ptr ∈ live) (n : Nat) :
    MPTraceInv g (multi_pool_t.deallocate g ptr n s, live.erase ptr) := by
  obtain ⟨j, i, k, t, hj, hi, hk, ht, hptr, hfree, howner, hindex, heq⟩ :=
    mp_deallocate_spec hg hI hmem n
  obtain ⟨hM, hL⟩ := hI
  have hb : 0 < g.b := by have := hg.1; omega
  have hBj := blockInv_getD hM hj
  obtain ⟨hplen, humax, hfits, hB1w, hpools⟩ := hBj
  have hpool_mem : (s.memory_blocks.getD j blockDefault).pools.getD i
      poolDefault ∈ (s.memory_blocks.getD j blockDefault).pools :=
    getD_mem_of_lt (by rw [hplen]; exact hi) _
  obtain ⟨hPB, hP1w, hPFF⟩ := hpools _ hpool_mem
  set blkj := s.memory_blocks.getD j blockDefault with hblkj
  set poolji := blkj.pools.getD i poolDefault with hpoolji
  set pool1 := pool_t.deallocate g.b poolji (k * g.b + t) with hpool1
  set blk1 : block_t :=
    ⟨blkj.ptr, set_bit blkj.unmaxed_pools i, blkj.pools.set i pool1⟩ with hblk1
  rw [heq]
  -- facts about the updated state
  have hlen1 : (s.memory_blocks.set j blk1).length = s.memory_blocks.length := by
    simp
  have hgetD_ne : ∀ j1, j1 ≠ j →
      (s.memory_blocks.set j blk1).getD j1 blockDefault =
        s.memory_blocks.getD j1 blockDefault := by
    intro j1 hne
    exact getD_set_ne _ _ _ fun h => hne h.symm
  have hgetD_eq : (s.memory_blocks.set j blk1).getD j blockDefault = blk1 :=
    getD_set_eq _ _ _ _ (by omega)
  have hptr_pres : ∀ j1,
      ((s.memory_blocks.set j blk1).getD j1 blockDefault).ptr =
        (s.memory_blocks.getD j1 blockDefault).ptr := by
    intro j1
    by_cases hne : j1 = j
    · subst hne; rw [hgetD_eq]
    · rw [hgetD_ne _ hne]
  have haddr_pres : ∀ j1 i1 k1 t1,
      live_addr g ⟨s.memory_blocks.set j blk1⟩ j1 i1 k1 t1 =
        live_addr g s j1 i1 k1 t1 := by
    intro j1 i1 k1 t1
    rw [live_addr, live_addr]
    exact congrArg (fun a => slot_addr g a i1 (k1 * g.b + t1)) (hptr_pres j1)
  have hwords : poolji.unallocated_slots.length = g.b := hPB.1
  have hwlt : word poolji k < 2 ^ g.b := word_lt hPB.2.2 k
  have hpool1_eq : pool1 =
      ⟨if set_bit (word poolji k) t = allMask g.b
        then set_bit poolji.unused_words k else poolji.unused_words,
       poolji.unallocated_slots.set k (set_bit (word poolji k) t)⟩ := by
    rw [hpool1]
    exact pool_deallocate_eq poolji hb ht
  have hSF_set : slotFree ⟨s.memory_blocks.set j blk1⟩ j i k t = true := by
    rw [slotFree]
    show test_bit ((((s.memory_blocks.set j blk1).getD j blockDefault).pools.getD
      i poolDefault).unallocated_slots.getD k 0) t = true
    rw [hgetD_eq, hblk1]
    dsimp only
    rw [getD_set_eq _ _ _ _ (by rw [hplen]; exact hi)]
    rw [hpool1_eq]
    dsimp only
    rw [getD_set_eq _ _ _ _ (by rw [hwords]; exact hk)]
    rw [test_bit, set_bit_testBit]
    simp
  have hSF_pres : ∀ j1 i1 k1 t1, ¬ (j1 = j ∧ i1 = i ∧ k1 = k ∧ t1 = t) →
      slotFree ⟨s.memory_blocks.set j blk1⟩ j1 i1 k1 t1 =
        slotFree s j1 i1 k1 t1 := by
    intro j1 i1 k1 t1 hne
    rw [slotFree, slotFree]
    by_cases hj1 : j1 = j
    · subst hj1
      show test_bit ((((s.memory_blocks.set j1 blk1).getD j1 blockDefault).pools.getD
        i1 poolDefault).unallocated_slots.getD k1 0) t1 = _
      rw [hgetD_eq, hblk1]
      dsimp only
      by_cases hi1 : i1 = i
      · subst hi1
        rw [getD_set_eq _ _ _ _ (by rw [hplen]; exact hi)]
        rw [hpool1_eq]
        dsimp only
        by_cases hk1 : k1 = k
        · subst hk1
          rw [show poolji.unallocated_slots.getD k1 0 = word poolji k1 from rfl]
          rw [getD_set_eq _ _ _ _ (by rw [hwords]; exact hk)]
          have hne_t : t1 ≠ t := by tauto
          have hnt : t ≠ t1 := fun h => hne_t h.symm
          rw [test_bit, test_bit, set_bit_testBit]
          simp [hnt]
        · rw [getD_set_ne _ _ _ fun h => hk1 h.symm]
      · rw [getD_set_ne _ _ _ fun h => hi1 h.symm]
    · rw [hgetD_ne _ hj1]
  -- the invariant for the updated block
  have hblk1Inv : blockInv g blk1 := by
    rw [hblk1]
    refine ⟨by simpa using hplen, set_bit_lt humax hi, hfits, ?_, ?_⟩
    · intro i1 hi1 hfull
      rw [test_bit, set_bit_testBit]
      by_cases hii : i1 = i
      · simp [hii]
      · dsimp only at hfull
        rw [getD_set_ne _ _ _ fun h => hii h.symm] at hfull
        have := hB1w i1 hi1 hfull
        rw [test_bit] at this
        simp [this]
    · dsimp only
      refine mem_set_bound ?_ ?_
      · exact hpools
      · rw [hpool1]
        exact ⟨pool_deallocate_bounds _ hb hk ht hPB,
          pool_deallocate_P1w _ hb hk ht hPB hP1w,
          pool_deallocate_PFullFree _ hb hk ht hPB hPFF⟩
  refine ⟨⟨?_, ?_⟩, ?_, ?_, ?_⟩
  · intro blk hblk
    rcases List.mem_or_eq_of_mem_set hblk with h | h
    · exact hM.1 blk h
    · rw [h]; exact hblk1Inv
  · show sepInv g ⟨s.memory_blocks.set j blk1⟩
    rw [sepInv]
    have hmap : (s.memory_blocks.set j blk1).map block_t.ptr =
        s.memory_blocks.map block_t.ptr := by
      rw [List.map_set]
      have hmg : (s.memory_blocks.map block_t.ptr).getD j 0 = blk1.ptr := by
        rw [List.getD_eq_getElem _ _ (by simpa using hj), List.getElem_map]
        rw [hblk1]
        show s.memory_blocks[j].ptr = blkj.ptr
        rw [hblkj, List.getD_eq_getElem _ _ hj]
      rw [← hmg, set_getD_self]
    rw [hmap]
    exact hM.2
  · -- forward direction of the live correspondence
    intro x hx
    have hx_live : x ∈ live := List.mem_of_mem_erase hx
    have hx_ne : x ≠ ptr := ((List.Nodup.mem_erase_iff hL.2.2).mp hx).1
    obtain ⟨j1, i1, k1, t1, hj1, hi1, hk1, ht1, hxa, hxf⟩ := hL.1 x hx_live
    refine ⟨j1, i1, k1, t1, by simpa using hj1, hi1, hk1, ht1, ?_, ?_⟩
    · rw [haddr_pres]; exact hxa
    · have hnetup : ¬ (j1 = j ∧ i1 = i ∧ k1 = k ∧ t1 = t) := by
        intro hcon
        obtain ⟨e1, e2, e3, e4⟩ := hcon
        subst e1; subst e2; subst e3; subst e4
        exact hx_ne (by rw [hxa, hptr])
      rw [hSF_pres _ _ _ _ hnetup]
      exact hxf
  · -- backward direction of the live correspondence
    intro j1 i1 k1 t1 hj1 hi1 hk1 ht1 hf
    rw [hlen1] at hj1
    by_cases htup : j1 = j ∧ i1 = i ∧ k1 = k ∧ t1 = t
    · obtain ⟨e1, e2, e3, e4⟩ := htup
      subst e1; subst e2; subst e3; subst e4
      rw [hSF_set] at hf
      exact Bool.noConfusion hf
    · rw [hSF_pres _ _ _ _ htup] at hf
      have hin := hL.2.1 j1 i1 k1 t1 hj1 hi1 hk1 ht1 hf
      rw [haddr_pres]
      refine (List.Nodup.mem_erase_iff hL.2.2).mpr ⟨?_, hin⟩
      intro hcon
      rw [hptr] at hcon
      have := live_addr_inj hg hM hj1 hi1 hk1 ht1 hj hi hk ht hcon
      exact htup ⟨this.1, this.2.1, this.2.2.1, this.2.2.2⟩
  · exact List.Nodup.erase _ hL.2.2

theorem pool_alloc_safe_elim {b : Nat} {p : pool_t}
    (h : pool_alloc_safe b p = true) :
    p.unused_words ≠ 0 ∧ word p (ctz p.unused_words) ≠ 0 := by
  rw [pool_alloc_safe, Bool.and_eq_true, bne_iff_ne, bne_iff_ne] at h
  exact h

/-- Preservation of the trace invariant by one allocation served by an
existing block. -/
theorem mp_alloc_sel_inv {g : geo_t} {s : multi_pool_t} {live : List Nat}
    {blk : block_t} (hg : geo_ok g) (hI : MPTraceInv g (s, live))
    (hsel : sel_block s.memory_blocks = some blk)
    (hsafe : pool_alloc_safe g.b
      (blk.pools.getD (ctz blk.unmaxed_pools) poolDefault) = true)
    (n : Nat) (m : Option Nat) :
    MPTraceInv g ((multi_pool_t.allocate g n m s).2,
      (multi_pool_t.allocate g n m s).1 :: live) := by
  obtain ⟨hM, hL⟩ := hI
  have hb : 0 < g.b := by have := hg.1; omega
  obtain ⟨l2, l3, hdec, hzero, hnz, haeq⟩ := mp_allocate_sel n m hsel
  have hj : l2.length < s.memory_blocks.length := by
    rw [hdec, List.length_append, List.length_cons]
    omega
  have hgetDj : s.memory_blocks.getD l2.length blockDefault = blk := by
    conv_lhs => rw [hdec]
    exact getD_middle _ _ _ _
  have hBj := blockInv_getD hM hj
  rw [hgetDj] at hBj
  obtain ⟨hplen, humax, hfits, hB1w, hpools⟩ := hBj
  have hisel : ctz blk.unmaxed_pools < g.b := ctz_lt hnz humax
  set pool := blk.pools.getD (ctz blk.unmaxed_pools) poolDefault with hpooldef
  have hpmem : pool ∈ blk.pools := getD_mem_of_lt (by rw [hplen]; exact hisel) _
  obtain ⟨hPB, hP1w, hPFF⟩ := hpools _ hpmem
  obtain ⟨huwnz, hwnz⟩ := pool_alloc_safe_elim hsafe
  have hksel : ctz pool.unused_words < g.b := ctz_lt huwnz hPB.2.1
  have htsel : ctz (word pool (ctz pool.unused_words)) < g.b :=
    ctz_lt hwnz (word_lt hPB.2.2 _)
  have hbitset : (word pool (ctz pool.unused_words)).testBit
      (ctz (word pool (ctz pool.unused_words))) = true := ctz_testBit _ hwnz
  set blkA := (blk_alloc g blk).2 with hblkAdef
  have hblkA : blkA = ⟨blk.ptr,
      if (pool_t.allocate g.b pool).2.full
        then clear_bit g.b blk.unmaxed_pools (ctz blk.unmaxed_pools)
        else blk.unmaxed_pools,
      blk.pools.set (ctz blk.unmaxed_pools) (pool_t.allocate g.b pool).2⟩ := rfl
  have hptr1 : (blk_alloc g blk).1 = slot_addr g blk.ptr (ctz blk.unmaxed_pools)
      (ctz pool.unused_words * g.b + ctz (word pool (ctz pool.unused_words))) := by
    rw [blk_alloc]
    dsimp only
    rw [pool_allocate_index]
  have hset : l2 ++ blkA :: l3 = s.memory_blocks.set l2.length blkA := by
    rw [hdec]
    exact middle_as_set l2 l3 blkA blk
  rw [haeq, hptr1, hset]
  -- relating access to the updated state with the old one
  have hlen1 : (s.memory_blocks.set l2.length blkA).length =
      s.memory_blocks.length := by simp
  have hgetD_ne : ∀ j1, j1 ≠ l2.length →
      (s.memory_blocks.set l2.length blkA).getD j1 blockDefault =
        s.memory_blocks.getD j1 blockDefault := by
    intro j1 hne
    exact getD_set_ne _ _ _ fun h => hne h.symm
  have hgetD_eq : (s.memory_blocks.set l2.length blkA).getD l2.length
      blockDefault = blkA := getD_set_eq _ _ _ _ (by omega)
  have hptr_pres : ∀ j1,
      ((s.memory_blocks.set l2.length blkA).getD j1 blockDefault).ptr =
        (s.memory_blocks.getD j1 blockDefault).ptr := by
    intro j1
    by_cases hne : j1 = l2.length
    · subst hne; rw [hgetD_eq, hblkA, hgetDj]
    · rw [hgetD_ne _ hne]
  have haddr_pres : ∀ j1 i1 k1 t1,
      live_addr g ⟨s.memory_blocks.set l2.length blkA⟩ j1 i1 k1 t1 =
        live_addr g s j1 i1 k1 t1 := by
    intro j1 i1 k1 t1
    rw [live_addr, live_addr]
    exact congrArg (fun a => slot_addr g a i1 (k1 * g.b + t1)) (hptr_pres j1)
  have hwords : pool.unallocated_slots.length = g.b := hPB.1
  have hSF_old : slotFree s l2.length (ctz blk.unmaxed_pools)
      (ctz pool.unused_words) (ctz (word pool (ctz pool.unused_words))) = true := by
    rw [slotFree, hgetDj, ← hpooldef]
    exact hbitset
  have hSF_clear : slotFree ⟨s.memory_blocks.set l2.length blkA⟩ l2.length
      (ctz blk.unmaxed_pools) (ctz pool.unused_words)
      (ctz (word pool (ctz pool.unused_words))) = false := by
    rw [slotFree]
    show test_bit ((((s.memory_blocks.set l2.length blkA).getD l2.length
      blockDefault).pools.getD (ctz blk.unmaxed_pools)
      poolDefault).unallocated_slots.getD (ctz pool.unused_words) 0) _ = false
    rw [hgetD_eq, hblkA]
    dsimp only
    rw [getD_set_eq _ _ _ _ (by rw [hplen]; exact hisel)]
    rw [pool_allocate_slots]
    rw [getD_set_eq _ _ _ _ (by rw [hwords]; exact hksel)]
    rw [test_bit, clear_bit_testBit _ _ (word_lt hPB.2.2 _)]
    simp
  have hSF_pres : ∀ j1 i1 k1 t1,
      ¬ (j1 = l2.length ∧ i1 = ctz blk.unmaxed_pools ∧
          k1 = ctz pool.unused_words ∧
          t1 = ctz (word pool (ctz pool.unused_words))) →
      slotFree ⟨s.memory_blocks.set l2.length blkA⟩ j1 i1 k1 t1 =
        slotFree s j1 i1 k1 t1 := by
    intro j1 i1 k1 t1 hne
    rw [slotFree, slotFree]
    by_cases hj1 : j1 = l2.length
    · subst hj1
      rw [hgetD_eq, hgetDj, hblkA]
      dsimp only
      by_cases hi1 : i1 = ctz blk.unmaxed_pools
      · subst hi1
        rw [getD_set_eq _ _ _ _ (by rw [hplen]; exact hisel), ← hpooldef]
        rw [pool_allocate_slots]
        by_cases hk1 : k1 = ctz pool.unused_words
        · subst hk1
          rw [show pool.unallocated_slots.getD (ctz pool.unused_words) 0 =
            word pool (ctz pool.unused_words) from rfl]
          rw [getD_set_eq _ _ _ _ (by rw [hwords]; exact hksel)]
          have hne_t : t1 ≠ ctz (word pool (ctz pool.unused_words)) := by tauto
          have hnt : ctz (word pool (ctz pool.unused_words)) ≠ t1 :=
            fun h => hne_t h.symm
          rw [test_bit, test_bit, clear_bit_testBit _ _ (word_lt hPB.2.2 _)]
          simp [hnt]
        · rw [getD_set_ne _ _ _ fun h => hk1 h.symm]
      · rw [getD_set_ne _ _ _ fun h => hi1 h.symm]
    · rw [hgetD_ne _ hj1]
  have hblkAInv : blockInv g blkA := by
    rw [hblkA]
    refine ⟨by simpa using hplen, ?_, hfits, ?_, ?_⟩
    · dsimp only
      split
      · exact clear_bit_lt _ humax
      · exact humax
    · intro i1 hi1 hfull
      dsimp only at hfull ⊢
      rw [test_bit]
      by_cases hii : i1 = ctz blk.unmaxed_pools
      · subst hii
        rw [getD_set_eq _ _ _ _ (by rw [hplen]; exact hi1)] at hfull
        rw [if_neg (by rw [hfull]; exact Bool.false_ne_true)]
        exact ctz_testBit _ hnz
      · rw [getD_set_ne _ _ _ fun h => hii h.symm] at hfull
        have hbit := hB1w i1 hi1 hfull
        rw [test_bit] at hbit
        have hnei : ctz blk.unmaxed_pools ≠ i1 := fun h => hii h.symm
        split
        · rw [clear_bit_testBit _ _ humax]
          simp [hbit, hnei]
        · exact hbit
    · dsimp only
      refine mem_set_bound hpools ?_
      exact ⟨pool_allocate_bounds _ hPB, pool_allocate_P1w _ hPB hP1w,
        pool_allocate_PFullFree _ hb hPB hPFF⟩
  refine ⟨⟨?_, ?_⟩, ?_, ?_, ?_⟩
  · intro c hc
    rcases List.mem_or_eq_of_mem_set hc with h | h
    · exact hM.1 c h
    · rw [h]; exact hblkAInv
  · show sepInv g ⟨s.memory_blocks.set l2.length blkA⟩
    rw [sepInv]
    have hmap : (s.memory_blocks.set l2.length blkA).map block_t.ptr =
        s.memory_blocks.map block_t.ptr := by
      rw [List.map_set]
      have hmg : (s.memory_blocks.map block_t.ptr).getD l2.length 0 =
          blkA.ptr := by
        rw [List.getD_eq_getElem _ _ (by simpa using hj), List.getElem_map]
        rw [hblkA]
        show s.memory_blocks[l2.length].ptr = blk.ptr
        rw [← hgetDj, List.getD_eq_getElem _ _ hj]
      rw [← hmg, set_getD_self]
    rw [hmap]
    exact hM.2
  · -- forward direction
    intro x hx
    rcases List.mem_cons.mp hx with hx0 | hxtail
    · refine ⟨l2.length, ctz blk.unmaxed_pools, ctz pool.unused_words,
        ctz (word pool (ctz pool.unused_words)), by simpa using hj, hisel,
        hksel, htsel, ?_, hSF_clear⟩
      rw [haddr_pres, hx0, live_addr, hgetDj]
    · obtain ⟨j1, i1, k1, t1, hj1, hi1, hk1, ht1, hxa, hxf⟩ := hL.1 x hxtail
      refine ⟨j1, i1, k1, t1, by simpa using hj1, hi1, hk1, ht1, ?_, ?_⟩
      · rw [haddr_pres]; exact hxa
      · rw [hSF_pres _ _ _ _ ?_]
        · exact hxf
        · intro hcon
          obtain ⟨e1, e2, e3, e4⟩ := hcon
          subst e1; subst e2; subst e3; subst e4
          rw [hxf] at hSF_old
          exact Bool.noConfusion hSF_old
  · -- backward direction
    intro j1 i1 k1 t1 hj1 hi1 hk1 ht1 hf
    rw [hlen1] at hj1
    by_cases htup : j1 = l2.length ∧ i1 = ctz blk.unmaxed_pools ∧
        k1 = ctz pool.unused_words ∧
        t1 = ctz (word pool (ctz pool.unused_words))
    · obtain ⟨e1, e2, e3, e4⟩ := htup
      subst e1; subst e2; subst e3; subst e4
      rw [haddr_pres]
      refine List.mem_cons.mpr (Or.inl ?_)
      rw [live_addr, hgetDj]
    · rw [hSF_pres _ _ _ _ htup] at hf
      have := hL.2.1 j1 i1 k1 t1 hj1 hi1 hk1 ht1 hf
      rw [haddr_pres]
      exact List.mem_cons.mpr (Or.inr this)
  · -- no duplicate pointers
    refine List.nodup_cons.mpr ⟨?_, hL.2.2⟩
    intro hmem
    obtain ⟨j1, i1, k1, t1, hj1, hi1, hk1, ht1, hxa, hxf⟩ := hL.1 _ hmem
    have haddr : live_addr g s l2.length (ctz blk.unmaxed_pools)
        (ctz pool.unused_words) (ctz (word pool (ctz pool.unused_words))) =
        live_addr g s j1 i1 k1 t1 := by
      rw [live_addr, hgetDj]
      exact hxa
    have := live_addr_inj hg hM hj hisel hksel htsel hj1 hi1 hk1 ht1 haddr
    obtain ⟨e1, e2, e3, e4⟩ := this
    subst e1; subst e2; subst e3; subst e4
    rw [hxf] at hSF_old
    exact Bool.noConfusion hSF_old

theorem pool_init_pieces {b : Nat} (hb : 0 < b) :
    poolBounds b (pool_t.init b) ∧ P1w b (pool_t.init b) ∧
      PFullFree b (pool_t.init b) := by
  have h := pool_init_inv hb
  exact ⟨h.1, h.2.1, h.2.2.1⟩

theorem init_word {b : Nat} (hb : 0 < b) (k : Nat) (hk : k < b) :
    word (pool_t.init b) k = allMask b := by
  rw [word, pool_t.init]
  exact getD_replicate _ _ hk

theorem pool_alloc_init_slots {b : Nat} (hb : 0 < b) :
    (pool_t.allocate b (pool_t.init b)).2.unallocated_slots =
      (List.replicate b (allMask b)).set 0 (clear_bit b (allMask b) 0) := by
  have h1 : ctz (pool_t.init b).unused_words = 0 := ctz_allMask hb
  have h2 : word (pool_t.init b) 0 = allMask b := init_word hb 0 hb
  rw [pool_allocate_slots, h1, h2, ctz_allMask hb]
  rfl

/-- Preservation of the trace invariant by one allocation that grows the
multi-pool (every existing block exhausted, malloc succeeds with a
usable address). -/
theorem mp_alloc_grow_inv {g : geo_t} {s : multi_pool_t} {live : List Nat}
    {m : Nat} (hg : geo_ok g) (hI : MPTraceInv g (s, live))
    (hnone : sel_block s.memory_blocks = none)
    (hfresh : fresh_base_ok g m s.memory_blocks = true) (n : Nat) :
    MPTraceInv g ((multi_pool_t.allocate g n (some m) s).2,
      (multi_pool_t.allocate g n (some m) s).1 :: live) := by
  obtain ⟨hM, hL⟩ := hI
  dsimp only at hM hL
  have hb : 0 < g.b := by have := hg.1; omega
  have hzero := (sel_block_none_iff s.memory_blocks).mp hnone
  have hgrow := mp_allocate_grow hb n (some m) hzero
  rw [Option.getD_some] at hgrow
  rw [hgrow]
  dsimp only
  obtain ⟨hPBi, hP1wi, hPFFi⟩ := pool_init_pieces (b := g.b) hb
  have hinit_safe1 : (pool_t.init g.b).unused_words ≠ 0 := allMask_ne_zero hb
  have hinit_safe2 : word (pool_t.init g.b) (ctz (pool_t.init g.b).unused_words) ≠ 0 := by
    rw [show (pool_t.init g.b).unused_words = allMask g.b from rfl, ctz_allMask hb,
      init_word hb 0 hb]
    exact allMask_ne_zero hb
  rw [fresh_base_ok, Bool.and_eq_true, List.all_eq_true] at hfresh
  obtain ⟨hfitm, hdisjm⟩ := hfresh
  set pA := (pool_t.allocate g.b (pool_t.init g.b)).2 with hpAdef
  set nb1 : block_t := ⟨m, allMask g.b,
    (List.replicate g.b (pool_t.init g.b)).set 0 pA⟩ with hnb1
  have hlen1 : (s.memory_blocks ++ [nb1]).length = s.memory_blocks.length + 1 := by
    simp
  have hgetD_old : ∀ j1, j1 < s.memory_blocks.length →
      (s.memory_blocks ++ [nb1]).getD j1 blockDefault =
        s.memory_blocks.getD j1 blockDefault := by
    intro j1 h
    exact getD_append_left _ _ _ h
  have hgetD_new : (s.memory_blocks ++ [nb1]).getD s.memory_blocks.length
      blockDefault = nb1 := by
    rw [show s.memory_blocks ++ [nb1] = s.memory_blocks ++ nb1 :: [] from rfl]
    exact getD_middle _ _ _ _
  have haddr_pres : ∀ j1, j1 < s.memory_blocks.length → ∀ i1 k1 t1,
      live_addr g ⟨s.memory_blocks ++ [nb1]⟩ j1 i1 k1 t1 =
        live_addr g s j1 i1 k1 t1 := by
    intro j1 h i1 k1 t1
    rw [live_addr, live_addr, hgetD_old _ h]
  have hSF_pres : ∀ j1, j1 < s.memory_blocks.length → ∀ i1 k1 t1,
      slotFree ⟨s.memory_blocks ++ [nb1]⟩ j1 i1 k1 t1 =
        slotFree s j1 i1 k1 t1 := by
    intro j1 h i1 k1 t1
    rw [slotFree, slotFree]
    show test_bit ((((s.memory_blocks ++ [nb1]).getD j1 blockDefault).pools.getD
      i1 poolDefault).unallocated_slots.getD k1 0) t1 = _
    rw [hgetD_old _ h]
  have hSF_new : ∀ i1 k1 t1, i1 < g.b → k1 < g.b → t1 < g.b →
      (slotFree ⟨s.memory_blocks ++ [nb1]⟩ s.memory_blocks.length i1 k1 t1 =
        false ↔ (i1 = 0 ∧ k1 = 0 ∧ t1 = 0)) := by
    intro i1 k1 t1 hi1 hk1 ht1
    rw [slotFree]
    show test_bit ((((s.memory_blocks ++ [nb1]).getD s.memory_blocks.length
      blockDefault).pools.getD i1 poolDefault).unallocated_slots.getD k1 0) t1 =
      false ↔ _
    rw [hgetD_new, hnb1]
    dsimp only
    by_cases hi0 : i1 = 0
    · subst hi0
      rw [getD_set_eq _ _ _ _ (by simpa using hb)]
      rw [show pA.unallocated_slots =
        (List.replicate g.b (allMask g.b)).set 0 (clear_bit g.b (allMask g.b) 0)
        from pool_alloc_init_slots hb]
      by_cases hk0 : k1 = 0
      · subst hk0
        rw [getD_set_eq _ _ _ _ (by simpa using hb)]
        rw [test_bit, clear_bit_testBit _ _ (allMask_lt g.b), allMask_testBit]
        constructor
        · intro hf
          simp [ht1] at hf
          exact ⟨rfl, rfl, hf.symm⟩
        · intro he
          simp [he.2.2]
      · rw [getD_set_ne _ _ _ fun h => hk0 h.symm, getD_replicate _ _ hk1]
        rw [test_bit, allMask_testBit]
        simp [ht1, hk0]
    · rw [getD_set_ne _ _ _ fun h => hi0 h.symm, getD_replicate _ _ hi1]
      rw [show (pool_t.init g.b).unallocated_slots.getD k1 0 =
        word (pool_t.init g.b) k1 from rfl, init_word hb k1 hk1]
      rw [test_bit, allMask_testBit]
      simp [ht1, hi0]
  refine ⟨⟨?_, ?_⟩, ?_, ?_, ?_⟩
  · intro c hc
    rcases List.mem_append.mp hc with h | h
    · exact hM.1 c h
    · rw [List.mem_singleton.mp h, hnb1]
      refine ⟨by simp, allMask_lt g.b, hfitm, ?_, ?_⟩
      · intro i1 hi1 _
        rw [test_bit, allMask_testBit]
        simp [hi1]
      · refine mem_set_bound ?_ ?_
        · intro p hp
          rw [List.eq_of_mem_replicate hp]
          exact ⟨hPBi, hP1wi, hPFFi⟩
        · exact ⟨pool_allocate_bounds _ hPBi, pool_allocate_P1w _ hPBi hP1wi,
            pool_allocate_PFullFree _ hb hPBi hPFFi⟩
  · show sepInv g ⟨s.memory_blocks ++ [nb1]⟩
    rw [sepInv, List.map_append]
    rw [List.pairwise_append]
    refine ⟨hM.2, by simp, ?_⟩
    intro a ha c hc
    rw [show (List.map block_t.ptr [nb1]) = [m] from rfl] at hc
    rw [List.mem_singleton.mp hc]
    obtain ⟨blk, hblk, hba⟩ := List.mem_map.mp ha
    rw [← hba]
    exact ranges_disjoint_symm (hdisjm blk hblk)
  · -- forward direction
    intro x hx
    rcases List.mem_cons.mp hx with hx0 | hxtail
    · refine ⟨s.memory_blocks.length, 0, 0, 0, by rw [hlen1]; omega, hb, hb,
        hb, ?_, ?_⟩
      · rw [live_addr, hgetD_new, hnb1]
        rw [hx0]
        show slot_addr g m 0 0 = slot_addr g m 0 (0 * g.b + 0)
        rw [show 0 * g.b + 0 = 0 from by omega]
      · rw [(hSF_new 0 0 0 hb hb hb)]
        exact ⟨rfl, rfl, rfl⟩
    · obtain ⟨j1, i1, k1, t1, hj1, hi1, hk1, ht1, hxa, hxf⟩ := hL.1 x hxtail
      refine ⟨j1, i1, k1, t1, by rw [hlen1]; omega, hi1, hk1, ht1, ?_, ?_⟩
      · rw [haddr_pres _ hj1]; exact hxa
      · rw [hSF_pres _ hj1]; exact hxf
  · -- backward direction
    intro j1 i1 k1 t1 hj1 hi1 hk1 ht1 hf
    rw [hlen1] at hj1
    rcases Nat.lt_or_ge j1 s.memory_blocks.length with hlt | hge
    · rw [hSF_pres _ hlt] at hf
      have := hL.2.1 j1 i1 k1 t1 hlt hi1 hk1 ht1 hf
      rw [haddr_pres _ hlt]
      exact List.mem_cons.mpr (Or.inr this)
    · have hjlen : j1 = s.memory_blocks.length := by omega
      subst hjlen
      rw [hSF_new i1 k1 t1 hi1 hk1 ht1] at hf
      obtain ⟨e1, e2, e3⟩ := hf
      subst e1; subst e2; subst e3
      refine List.mem_cons.mpr (Or.inl ?_)
      rw [live_addr, hgetD_new, hnb1]
      show slot_addr g m 0 (0 * g.b + 0) = slot_addr g m 0 0
      rw [show 0 * g.b + 0 = 0 from by omega]
  · -- no duplicate pointers
    refine List.nodup_cons.mpr ⟨?_, hL.2.2⟩
    intro hmem
    obtain ⟨j1, i1, k1, t1, hj1, hi1, hk1, ht1, hxa, hxf⟩ := hL.1 _ hmem
    have hfitj : block_fits g (s.memory_blocks.getD j1 blockDefault).ptr = true :=
      (blockInv_getD hM hj1).2.2.1
    have hdisj : ranges_disjoint g m
        (s.memory_blocks.getD j1 blockDefault).ptr = true :=
      hdisjm _ (getD_mem_of_lt hj1 _)
    have hidx1 : k1 * g.b + t1 < g.b * g.b := slot_index_lt hk1 ht1
    have howner := dealloc_pool_idx_owner hg hfitj hi1 hidx1
    have hmiss := dealloc_pool_idx_miss hg hfitj hfitm
      (ranges_disjoint_symm hdisj) hb (Nat.mul_pos hb hb)
    exact hmiss (by rw [hxa, live_addr, howner]; exact hi1)

theorem mp_init_inv {g : geo_t} {base0 : Nat} (hg : geo_ok g)
    (hfit : block_fits g base0 = true) :
    MPTraceInv g (multi_pool_t.init g (some base0), []) := by
  have hb : 0 < g.b := by have := hg.1; omega
  obtain ⟨hPBi, hP1wi, hPFFi⟩ := pool_init_pieces (b := g.b) hb
  have hblocks : (multi_pool_t.init g (some base0)).memory_blocks =
      [⟨base0, allMask g.b, List.replicate g.b (pool_t.init g.b)⟩] := rfl
  refine ⟨⟨?_, ?_⟩, ?_, ?_, ?_⟩
  · intro blk hblk
    rw [hblocks, List.mem_singleton] at hblk
    rw [hblk]
    refine ⟨by simp, allMask_lt g.b, hfit, ?_, ?_⟩
    · intro i1 hi1 _
      rw [test_bit, allMask_testBit]
      simp [hi1]
    · intro p hp
      rw [List.eq_of_mem_replicate hp]
      exact ⟨hPBi, hP1wi, hPFFi⟩
  · show sepInv g (multi_pool_t.init g (some base0))
    rw [sepInv, hblocks]
    simp
  · intro x hx
    simp at hx
  · intro j1 i1 k1 t1 hj1 hi1 hk1 ht1 hf
    rw [hblocks] at hj1
    simp at hj1
    rw [slotFree] at hf
    rw [hblocks] at hf
    rw [hj1] at hf
    have hg0 : ([⟨base0, allMask g.b,
        List.replicate g.b (pool_t.init g.b)⟩] : List block_t).getD 0
        blockDefault = ⟨base0, allMask g.b,
        List.replicate g.b (pool_t.init g.b)⟩ := rfl
    rw [hg0] at hf
    dsimp only at hf
    rw [getD_replicate _ _ hi1] at hf
    rw [show (pool_t.init g.b).unallocated_slots.getD k1 0 =
      word (pool_t.init g.b) k1 from rfl, init_word hb k1 hk1] at hf
    rw [test_bit, allMask_testBit] at hf
    simp [ht1] at hf
  · exact List.nodup_nil

theorem mp_step_inv {g : geo_t} (hg : geo_ok g)
    {st st1 : multi_pool_t × List Nat} {op : MPOp}
    (hI : MPTraceInv g st) (h : mp_step g st op = some st1) :
    MPTraceInv g st1 := by
  cases op with
  | alloc m =>
    rw [mp_step] at h
    split at h
    · rename_i hguard
      rw [Bool.and_eq_true] at hguard
      rw [Option.some_inj] at h
      subst h
      cases hsel : sel_block st.1.memory_blocks with
      | some blk =>
        have hok := hguard.1
        rw [alloc_ok, hsel] at hok
        have hIp : MPTraceInv g (st.1, st.2) := by
          obtain ⟨a, b⟩ := st
          exact hI
        exact mp_alloc_sel_inv hg hIp hsel hok 1 (some m)
      | none =>
        have hfresh := hguard.2
        rw [hsel] at hfresh
        have hIp : MPTraceInv g (st.1, st.2) := by
          obtain ⟨a, b⟩ := st
          exact hI
        exact mp_alloc_grow_inv hg hIp hsel hfresh 1
    · exact Option.noConfusion h
  | dealloc ptr =>
    rw [mp_step] at h
    split at h
    · rename_i hmem
      rw [Option.some_inj] at h
      subst h
      have hIp : MPTraceInv g (st.1, st.2) := by
        obtain ⟨a, b⟩ := st
        exact hI
      exact mp_dealloc_inv hg hIp hmem 1
    · exact Option.noConfusion h

theorem mp_foldl_inv {g : geo_t} (hg : geo_ok g) :
    ∀ (ops : List MPOp) (st0 st : multi_pool_t × List Nat),
      MPTraceInv g st0 →
      List.foldlM (mp_step g) st0 ops = some st → MPTraceInv g st := by
  intro ops
  induction ops with
  | nil =>
    intro st0 st h0 h
    rw [List.foldlM_nil] at h
    have : st0 = st := Option.some_inj.mp h
    exact this ▸ h0
  | cons op ops ih =>
    intro st0 st h0 h
    rw [List.foldlM_cons] at h
    cases hstep : mp_step g st0 op with
    | none => rw [hstep] at h; exact Option.noConfusion h
    | some st1 =>
      rw [hstep] at h
      exact ih st1 st (mp_step_inv hg h0 hstep) h

theorem mp_run_inv {g : geo_t} {base0 : Nat} {ops : List MPOp}
    {st : multi_pool_t × List Nat} (hg : geo_ok g)
    (h : mp_run g base0 ops = some st) : MPTraceInv g st := by
  rw [mp_run] at h
  split at h
  · rename_i hfit
    exact mp_foldl_inv hg ops _ st (mp_init_inv hg hfit) h
  · exact Option.noConfusion h

/-! Claim C3. -/

/-- Amended claim C3: along every precondition-respecting multi-pool
trace, only the forward direction of invariant B1 holds in every block:
a pool that is not full has its unmaxed_pools bit set.  The converse is
false (see the counterexample): deallocating into a full pool sets the
block's unmaxed_pools bit even though the pool's unused_words word, and
hence full(), is unchanged. -/
theorem claim_C3_amended {g : geo_t} {base0 : Nat} {ops : List MPOp}
    {s : multi_pool_t} {live : List Nat} (hg : geo_ok g)
    (h : mp_run g base0 ops = some (s, live)) :
    ∀ blk ∈ s.memory_blocks, ∀ i < g.b,
      (blk.pools.getD i poolDefault).full = false →
      test_bit blk.unmaxed_pools i = true := by
  have hI := mp_run_inv hg h
  intro blk hblk
  exact (hI.1.1 blk hblk).2.2.2.1

/-- Witness for the amended claim C3 on the freshly constructed
multi-pool. -/
theorem claim_C3_amended_witness :
    geo_ok g64 ∧
    mp_run g64 4096 [] = some (multi_pool_t.init g64 (some 4096), []) ∧
    (∀ blk ∈ (multi_pool_t.init g64 (some 4096)).memory_blocks, ∀ i < g64.b,
      (blk.pools.getD i poolDefault).full = false →
      test_bit blk.unmaxed_pools i = true) :=
  ⟨by decide, by decide,
    @claim_C3_amended g64 4096 [] (multi_pool_t.init g64 (some 4096)) []
      (by decide) (by decide)⟩

/-! Claim C4. -/

/-- Claim C4: deallocating a live pointer scans the blocks from tail
toward head; exactly the owning block passes the pool_idx < b test (the
pointer lies in pool pool_idx's data, at slot index k * b + t), every
other block fails it, and the result sets bit pool_idx of the owning
block's unmaxed_pools and delegates the slot to the owning pool,
touching nothing else. -/
theorem claim_C4 {g : geo_t} {base0 : Nat} {ops : List MPOp}
    {s : multi_pool_t} {live : List Nat} {ptr : Nat} (hg : geo_ok g)
    (h : mp_run g base0 ops = some (s, live)) (hmem : ptr ∈ live) :
    ∃ j i k t, j < s.memory_blocks.length ∧ i < g.b ∧ k < g.b ∧ t < g.b ∧
      ptr = slot_addr g (s.memory_blocks.getD j blockDefault).ptr i
        (k * g.b + t) ∧ k * g.b + t < g.b * g.b ∧
      dealloc_pool_idx g ptr (s.memory_blocks.getD j blockDefault).ptr = i ∧
      (∀ j1 < s.memory_blocks.length, j1 ≠ j →
        ¬ dealloc_pool_idx g ptr
          (s.memory_blocks.getD j1 blockDefault).ptr < g.b) ∧
      multi_pool_t.deallocate g ptr 1 s =
        ⟨s.memory_blocks.set j
          ⟨(s.memory_blocks.getD j blockDefault).ptr,
           set_bit (s.memory_blocks.getD j blockDefault).unmaxed_pools i,
           (s.memory_blocks.getD j blockDefault).pools.set i
             (pool_t.deallocate g.b
               ((s.memory_blocks.getD j blockDefault).pools.getD i poolDefault)
               (k * g.b + t))⟩⟩ := by
  have hI := mp_run_inv hg h
  obtain ⟨j, i, k, t, hj, hi, hk, ht, hptr, hfree, howner, hindex, heq⟩ :=
    mp_deallocate_spec hg hI hmem 1
  have hM := hI.1
  refine ⟨j, i, k, t, hj, hi, hk, ht, by rw [hptr, live_addr],
    slot_index_lt hk ht, howner, ?_, heq⟩
  intro j1 hj1 hne
  have hfit : block_fits g (s.memory_blocks.getD j blockDefault).ptr = true :=
    (blockInv_getD hM hj).2.2.1
  have hfit1 : block_fits g (s.memory_blocks.getD j1 blockDefault).ptr = true :=
    (blockInv_getD hM hj1).2.2.1
  have hdisj := sep_disjoint hM hj1 hj hne
  rw [hptr, live_addr]
  exact dealloc_pool_idx_miss hg hfit1 hfit hdisj hi (slot_index_lt hk ht)

/-- Witness for claim C4: the pointer returned by the first allocation
of a fresh multi-pool. -/
theorem claim_C4_witness :
    geo_ok g64 ∧
    mp_run g64 4096 [MPOp.alloc 0] = some
      (⟨[⟨4096, allMask 64, (List.replicate 64 (pool_t.init 64)).set 0
          (pool_t.allocate 64 (pool_t.init 64)).2⟩]⟩,
        [slot_addr g64 4096 0 0]) ∧
    slot_addr g64 4096 0 0 ∈ [slot_addr g64 4096 0 0] ∧
    (∃ j i k t, j < (1 : Nat) ∧ i < g64.b ∧ k < g64.b ∧ t < g64.b ∧
      slot_addr g64 4096 0 0 =
        slot_addr g64 ((([⟨4096, allMask 64,
          (List.replicate 64 (pool_t.init 64)).set 0
            (pool_t.allocate 64 (pool_t.init 64)).2⟩] : List block_t)).getD j
              blockDefault).ptr i (k * g64.b + t) ∧
      k * g64.b + t < g64.b * g64.b) := by
  refine ⟨by decide, by decide, by decide, ?_⟩
  obtain ⟨j, i, k, t, hj, hi, hk, ht, hptr, hidx, _⟩ :=
    @claim_C4 g64 4096 [MPOp.alloc 0]
      ⟨[⟨4096, allMask 64, (List.replicate 64 (pool_t.init 64)).set 0
        (pool_t.allocate 64 (pool_t.init 64)).2⟩]⟩
      [slot_addr g64 4096 0 0] (slot_addr g64 4096 0 0)
      (by decide) (by decide) (by decide)
  exact ⟨j, i, k, t, by simpa using hj, hi, hk, ht, hptr, hidx⟩

/-! Claim C5. -/

/-- Claim C5 is false of the code: when every block is exhausted and the
backing malloc fails (returns the null pointer), multi_pool_t::allocate
still pushes a new block record built from the null pointer and returns
a "slot" carved out of address 0 + offsetof(data); the state has
changed, no failure is surfaced to the caller, and (in the real program)
pool_t::init then writes through the null pointer.  This theorem
evaluates the model at the failing input: the block list grows and a
non-null-checked pointer is produced. -/
theorem claim_C5_code_bug {g : geo_t} (s : multi_pool_t) (n : Nat)
    (hb : 0 < g.b) (h : ∀ blk ∈ s.memory_blocks, blk.unmaxed_pools = 0) :
    (multi_pool_t.allocate g n none s).2.memory_blocks.length =
      s.memory_blocks.length + 1 ∧
    (multi_pool_t.allocate g n none s).2 ≠ s ∧
    (multi_pool_t.allocate g n none s).1 = slot_addr g 0 0 0 := by
  have hgrow := mp_allocate_grow hb n none h
  rw [hgrow]
  dsimp only
  refine ⟨by simp, ?_, rfl⟩
  intro hc
  have := congrArg (fun x : multi_pool_t => x.memory_blocks.length) hc
  simp at this

/-- Witness for the C5 failing input: a multi-pool with one completely
full block and a failed malloc. -/
theorem claim_C5_code_bug_witness :
    (0 : Nat) < g64.b ∧
    (∀ blk ∈ (⟨[⟨4096, 0, List.replicate 64 (⟨0, List.replicate 64 0⟩ :
        pool_t)⟩]⟩ : multi_pool_t).memory_blocks, blk.unmaxed_pools = 0) ∧
    ((multi_pool_t.allocate g64 1 none
        ⟨[⟨4096, 0, List.replicate 64 (⟨0, List.replicate 64 0⟩ : pool_t)⟩]⟩).2.memory_blocks.length =
      1 + 1 ∧
    (multi_pool_t.allocate g64 1 none
        ⟨[⟨4096, 0, List.replicate 64 (⟨0, List.replicate 64 0⟩ : pool_t)⟩]⟩).2 ≠
      ⟨[⟨4096, 0, List.replicate 64 (⟨0, List.replicate 64 0⟩ : pool_t)⟩]⟩ ∧
    (multi_pool_t.allocate g64 1 none
        ⟨[⟨4096, 0, List.replicate 64 (⟨0, List.replicate 64 0⟩ : pool_t)⟩]⟩).1 =
      slot_addr g64 0 0 0) :=
  ⟨by decide, by decide,
    claim_C5_code_bug
      ⟨[⟨4096, 0, List.replicate 64 (⟨0, List.replicate 64 0⟩ : pool_t)⟩]⟩ 1
      (by decide) (by decide)⟩

/-! Claim C10. -/

/-- Claim C10: the count argument n is dead on the multi-pool public
interface: release-build allocate(n) equals allocate(1) in return value
and state effect, deallocate(ptr, n) equals deallocate(ptr, 1), the
debug build of deallocate never inspects n either, and the only use of
n anywhere is the debug assert of allocate, which aborts for n ≠ 1. -/
theorem claim_C10 :
    (∀ (g : geo_t) (n : Nat) (m : Option Nat) (s : multi_pool_t),
      multi_pool_t.allocate g n m s = multi_pool_t.allocate g 1 m s) ∧
    (∀ (g : geo_t) (ptr n : Nat) (s : multi_pool_t),
      multi_pool_t.deallocate g ptr n s = multi_pool_t.deallocate g ptr 1 s) ∧
    (∀ (g : geo_t) (ptr n : Nat) (s : multi_pool_t),
      multi_pool_t.deallocate_dbg g ptr n s =
        multi_pool_t.deallocate_dbg g ptr 1 s) ∧
    (∀ (g : geo_t) (n : Nat) (m : Option Nat) (s : multi_pool_t), n ≠ 1 →
      multi_pool_t.allocate_dbg g n m s = none) := by
  refine ⟨fun _ _ _ _ => rfl, fun _ _ _ _ => rfl, fun _ _ _ _ => rfl, ?_⟩
  intro g n m s hn
  rw [multi_pool_t.allocate_dbg, if_neg hn]

/-- Witness for claim C10 at a concrete count n = 5. -/
theorem claim_C10_witness :
    multi_pool_t.allocate g64 5 (some 0) (multi_pool_t.init g64 (some 4096)) =
      multi_pool_t.allocate g64 1 (some 0)
        (multi_pool_t.init g64 (some 4096)) ∧
    multi_pool_t.allocate_dbg g64 5 (some 0)
      (multi_pool_t.init g64 (some 4096)) = none :=
  ⟨claim_C10.1 g64 5 (some 0) (multi_pool_t.init g64 (some 4096)),
    claim_C10.2.2.2 g64 5 (some 0) (multi_pool_t.init g64 (some 4096))
      (by decide)⟩

/-! Closed form of the allocation-only multi-pool run: the first b * b
allocations are all served by pool 0 of the initial block. -/

theorem mp_live_after_succ (g : geo_t) (base0 j : Nat) :
    mp_live_after g base0 (j + 1) =
      slot_addr g base0 0 j :: mp_live_after g base0 j := by
  rw [mp_live_after, mp_live_after, List.range_succ, List.reverse_append]
  rfl

theorem mp_after_zero {g : geo_t} (hg : geo_ok g) (base0 : Nat) :
    mp_after g base0 0 = multi_pool_t.init g (some base0) := by
  have hb : 0 < g.b := by have := hg.1; omega
  rw [mp_after, multi_pool_t.init, multi_pool_t.new_block]
  rw [if_pos (Nat.mul_pos hb hb)]
  rw [pool_after_zero]
  have hrep : (List.replicate g.b (pool_t.init g.b)).set 0 (pool_t.init g.b) =
      List.replicate g.b (pool_t.init g.b) := by
    nth_rewrite 2 [show pool_t.init g.b =
      (List.replicate g.b (pool_t.init g.b)).getD 0 poolDefault from
      (getD_replicate _ _ hb).symm]
    exact set_getD_self _ _ _
  rw [hrep]
  rfl

theorem pool_after_uw (b j : Nat) :
    (pool_after b j).unused_words = 2 ^ b - 2 ^ (j / b) := rfl

theorem mp_alloc_step_closed {g : geo_t} {base0 : Nat} (hg : geo_ok g)
    (m : Nat) {j : Nat} (hj : j < g.b * g.b) :
    mp_step g (mp_after g base0 j, mp_live_after g base0 j) (MPOp.alloc m) =
      some (mp_after g base0 (j + 1), mp_live_after g base0 (j + 1)) := by
  have hb : 0 < g.b := by have := hg.1; omega
  have hq : j / g.b < g.b := Nat.div_lt_iff_lt_mul hb |>.mpr hj
  have hr : j % g.b < g.b := Nat.mod_lt _ hb
  have hstate : mp_after g base0 j = ⟨[⟨base0, allMask g.b,
      (List.replicate g.b (pool_t.init g.b)).set 0 (pool_after g.b j)⟩]⟩ := by
    rw [mp_after, if_pos hj]
  have hgetD0 : ((List.replicate g.b (pool_t.init g.b)).set 0
      (pool_after g.b j)).getD 0 poolDefault = pool_after g.b j :=
    getD_set_eq _ _ _ _ (by simpa using hb)
  have huwne : (pool_after g.b j).unused_words ≠ 0 := by
    rw [pool_after_uw]
    exact pow_sub_pow_ne_zero hq
  have hctzuw : ctz (pool_after g.b j).unused_words = j / g.b := by
    rw [pool_after_uw]
    exact ctz_pow_sub_pow hq
  have hwne : word (pool_after g.b j) (ctz (pool_after g.b j).unused_words) ≠ 0 := by
    rw [hctzuw, pool_after_word hq]
    simp only [Nat.lt_irrefl, if_false, if_neg (Nat.lt_irrefl _), if_pos rfl]
    exact pow_sub_pow_ne_zero hr
  have hsafe : pool_alloc_safe g.b (pool_after g.b j) = true := by
    rw [pool_alloc_safe, Bool.and_eq_true, bne_iff_ne, bne_iff_ne]
    refine ⟨huwne, ?_⟩
    rw [hctzuw]
    have := hwne
    rw [hctzuw] at this
    exact this
  have hsel : sel_block [(⟨base0, allMask g.b,
      (List.replicate g.b (pool_t.init g.b)).set 0 (pool_after g.b j)⟩ :
        block_t)] = some ⟨base0, allMask g.b,
      (List.replicate g.b (pool_t.init g.b)).set 0 (pool_after g.b j)⟩ := by
    rw [sel_block, sel_block]
    simp [allMask_ne_zero hb]
  have hctzmask : ctz (allMask g.b) = 0 := ctz_allMask hb
  have hstep := pool_after_step hb hj
  have hscan : alloc_scan g [(⟨base0, allMask g.b,
      (List.replicate g.b (pool_t.init g.b)).set 0 (pool_after g.b j)⟩ :
        block_t)] = some ((blk_alloc g ⟨base0, allMask g.b,
      (List.replicate g.b (pool_t.init g.b)).set 0 (pool_after g.b j)⟩).1,
      [(blk_alloc g ⟨base0, allMask g.b,
        (List.replicate g.b (pool_t.init g.b)).set 0 (pool_after g.b j)⟩).2]) := by
    rw [alloc_scan]
    rw [show alloc_scan g ([] : List block_t) = none from rfl]
    dsimp only
    rw [if_pos (allMask_ne_zero hb)]
  have halloc : multi_pool_t.allocate g 1 (some m) ⟨[⟨base0, allMask g.b,
      (List.replicate g.b (pool_t.init g.b)).set 0 (pool_after g.b j)⟩]⟩ =
      ((blk_alloc g ⟨base0, allMask g.b,
        (List.replicate g.b (pool_t.init g.b)).set 0 (pool_after g.b j)⟩).1,
       ⟨[(blk_alloc g ⟨base0, allMask g.b,
        (List.replicate g.b (pool_t.init g.b)).set 0 (pool_after g.b j)⟩).2]⟩) := by
    rw [multi_pool_t.allocate, hscan]
  have hblk : blk_alloc g ⟨base0, allMask g.b,
      (List.replicate g.b (pool_t.init g.b)).set 0 (pool_after g.b j)⟩ =
      (slot_addr g base0 0 j,
       ⟨base0,
        if (pool_after g.b (j + 1)).full then clear_bit g.b (allMask g.b) 0
        else allMask g.b,
        (List.replicate g.b (pool_t.init g.b)).set 0 (pool_after g.b (j + 1))⟩) := by
    rw [blk_alloc]
    dsimp only
    rw [hctzmask, hgetD0, hstep]
    dsimp only
    rw [List.set_set]
  rw [hstate, mp_step]
  dsimp only
  rw [alloc_ok]
  dsimp only
  rw [hsel]
  dsimp only
  rw [hctzmask, hgetD0, hsafe]
  rw [if_pos (show (true && true) = true from rfl)]
  rw [halloc]
  dsimp only
  rw [hblk]
  dsimp only
  rw [Option.some_inj, Prod.mk.injEq]
  constructor
  · by_cases hlast : j + 1 < g.b * g.b
    · have hne : (pool_after g.b (j + 1)).unused_words ≠ 0 := by
        rw [pool_after_uw]
        exact pow_sub_pow_ne_zero (Nat.div_lt_iff_lt_mul hb |>.mpr hlast)
      rw [(pool_full_false_iff _).mpr hne]
      rw [if_neg Bool.false_ne_true]
      rw [mp_after, if_pos hlast]
    · have hz : (pool_after g.b (j + 1)).unused_words = 0 := by
        rw [pool_after_uw]
        have hjeq : j + 1 = g.b * g.b := by omega
        have hdd : (j + 1) / g.b = g.b := by
          rw [hjeq, Nat.mul_div_cancel _ hb]
        rw [hdd]
        exact Nat.sub_self _
      rw [(pool_full_iff _).mpr hz]
      rw [if_pos rfl, mp_after, if_neg hlast]
  · rw [mp_live_after_succ]

/-! Running the closed form: j successive allocations from construction. -/

theorem option_some_bind {α β : Type} (a : α) (f : α → Option β) :
    (some a >>= f) = f a := rfl

theorem foldlM_singleton {α β : Type} (f : β → α → Option β) (b : β) (a : α) :
    List.foldlM f b [a] = f b a := by
  rw [List.foldlM_cons]
  cases f b a <;> rfl

theorem mp_allocs_run {g : geo_t} {base0 : Nat} (hg : geo_ok g) (m : Nat) :
    ∀ j, j ≤ g.b * g.b →
    List.foldlM (mp_step g)
      ((multi_pool_t.init g (some base0), []) : multi_pool_t × List Nat)
      (List.replicate j (MPOp.alloc m)) =
      some (mp_after g base0 j, mp_live_after g base0 j) := by
  intro j
  induction j with
  | zero =>
    intro _
    rw [List.replicate, List.foldlM_nil, mp_after_zero hg]
    rfl
  | succ j ih =>
    intro hj1
    have hj : j < g.b * g.b := hj1
    rw [List.replicate_succ']
    rw [List.foldlM_append]
    rw [ih (le_of_lt hj)]
    rw [option_some_bind, foldlM_singleton]
    exact mp_alloc_step_closed hg m hj

theorem mp_allocs_mp_run {g : geo_t} {base0 : Nat} (hg : geo_ok g)
    (hfit : block_fits g base0 = true) (m : Nat) {j : Nat}
    (hj : j ≤ g.b * g.b) :
    mp_run g base0 (List.replicate j (MPOp.alloc m)) =
      some (mp_after g base0 j, mp_live_after g base0 j) := by
  rw [mp_run, if_pos hfit]
  exact mp_allocs_run hg m j hj

/-! The (b * b + 1)-th allocation: pool 0 of the initial block is full
and its unmaxed_pools bit is clear, so ctz selects pool index 1. -/

theorem mp_alloc_step_full {g : geo_t} {base0 : Nat} (hg : geo_ok g) (m : Nat) :
    mp_step g (mp_after g base0 (g.b * g.b), mp_live_after g base0 (g.b * g.b))
      (MPOp.alloc m) =
      some (⟨[⟨base0, clear_bit g.b (allMask g.b) 0,
        ((List.replicate g.b (pool_t.init g.b)).set 0
          (pool_after g.b (g.b * g.b))).set 1 (pool_after g.b 1)⟩]⟩,
        slot_addr g base0 1 0 :: mp_live_after g base0 (g.b * g.b)) := by
  have hb2 : 2 ≤ g.b := hg.1
  have hb : 0 < g.b := by omega
  have hmask_lt : allMask g.b < 2 ^ g.b := by
    have := Nat.two_pow_pos g.b
    rw [allMask]
    omega
  have hcb : clear_bit g.b (allMask g.b) 0 = 2 ^ g.b - 2 ^ 1 := by
    apply Nat.eq_of_testBit_eq
    intro i
    rw [clear_bit_testBit _ _ hmask_lt]
    rw [show allMask g.b = 2 ^ g.b - 2 ^ 0 from by rw [allMask]; norm_num]
    rw [testBit_pow_sub_pow (Nat.zero_le _) i, testBit_pow_sub_pow (by omega) i]
    by_cases h0 : i = 0
    · subst h0; simp
    · have h1 : 1 ≤ i := Nat.pos_of_ne_zero h0
      have h2 : 0 ≠ i := fun h => h0 h.symm
      simp [h1, h2]
  have hne0 : clear_bit g.b (allMask g.b) 0 ≠ 0 := by
    rw [hcb]
    exact pow_sub_pow_ne_zero hb2
  have hctzcb : ctz (clear_bit g.b (allMask g.b) 0) = 1 := by
    rw [hcb]
    exact ctz_pow_sub_pow hb2
  have hstate : mp_after g base0 (g.b * g.b) = ⟨[⟨base0,
      clear_bit g.b (allMask g.b) 0,
      (List.replicate g.b (pool_t.init g.b)).set 0
        (pool_after g.b (g.b * g.b))⟩]⟩ := by
    rw [mp_after, if_neg (Nat.lt_irrefl _)]
  have hL1 : ((List.replicate g.b (pool_t.init g.b)).set 0
      (pool_after g.b (g.b * g.b))).getD 1 poolDefault = pool_t.init g.b := by
    rw [getD_set_ne _ _ _ (by omega)]
    exact getD_replicate _ _ (by omega)
  have hinit_safe : pool_alloc_safe g.b (pool_t.init g.b) = true := by
    rw [pool_alloc_safe, Bool.and_eq_true, bne_iff_ne, bne_iff_ne]
    constructor
    · show allMask g.b ≠ 0
      exact allMask_ne_zero hb
    · show (List.replicate g.b (allMask g.b)).getD (ctz (allMask g.b)) 0 ≠ 0
      rw [ctz_allMask hb, getD_replicate _ _ hb]
      exact allMask_ne_zero hb
  have hstep1 : pool_t.allocate g.b (pool_t.init g.b) = (0, pool_after g.b 1) := by
    rw [← pool_after_zero]
    exact pool_after_step hb (Nat.mul_pos hb hb)
  have hsel1 : sel_block [(⟨base0, clear_bit g.b (allMask g.b) 0,
      (List.replicate g.b (pool_t.init g.b)).set 0
        (pool_after g.b (g.b * g.b))⟩ : block_t)] = some ⟨base0,
      clear_bit g.b (allMask g.b) 0,
      (List.replicate g.b (pool_t.init g.b)).set 0
        (pool_after g.b (g.b * g.b))⟩ := by
    rw [sel_block, sel_block]
    simp [hne0]
  have hscan1 : alloc_scan g [(⟨base0, clear_bit g.b (allMask g.b) 0,
      (List.replicate g.b (pool_t.init g.b)).set 0
        (pool_after g.b (g.b * g.b))⟩ : block_t)] =
      some ((blk_alloc g ⟨base0, clear_bit g.b (allMask g.b) 0,
        (List.replicate g.b (pool_t.init g.b)).set 0
          (pool_after g.b (g.b * g.b))⟩).1,
       [(blk_alloc g ⟨base0, clear_bit g.b (allMask g.b) 0,
        (List.replicate g.b (pool_t.init g.b)).set 0
          (pool_after g.b (g.b * g.b))⟩).2]) := by
    rw [alloc_scan]
    rw [show alloc_scan g ([] : List block_t) = none from rfl]
    dsimp only
    rw [if_pos hne0]
  have halloc1 : multi_pool_t.allocate g 1 (some m) ⟨[⟨base0,
      clear_bit g.b (allMask g.b) 0,
      (List.replicate g.b (pool_t.init g.b)).set 0
        (pool_after g.b (g.b * g.b))⟩]⟩ =
      ((blk_alloc g ⟨base0, clear_bit g.b (allMask g.b) 0,
        (List.replicate g.b (pool_t.init g.b)).set 0
          (pool_after g.b (g.b * g.b))⟩).1,
       ⟨[(blk_alloc g ⟨base0, clear_bit g.b (allMask g.b) 0,
        (List.replicate g.b (pool_t.init g.b)).set 0
          (pool_after g.b (g.b * g.b))⟩).2]⟩) := by
    rw [multi_pool_t.allocate, hscan1]
  have hfull1 : (pool_after g.b 1).full = false := by
    rw [pool_full_false_iff, pool_after_uw]
    rw [Nat.div_eq_of_lt (by omega)]
    exact pow_sub_pow_ne_zero hb
  have hblk1 : blk_alloc g ⟨base0, clear_bit g.b (allMask g.b) 0,
      (List.replicate g.b (pool_t.init g.b)).set 0
        (pool_after g.b (g.b * g.b))⟩ =
      (slot_addr g base0 1 0,
       ⟨base0, clear_bit g.b (allMask g.b) 0,
        ((List.replicate g.b (pool_t.init g.b)).set 0
          (pool_after g.b (g.b * g.b))).set 1 (pool_after g.b 1)⟩) := by
    rw [blk_alloc]
    dsimp only
    rw [hctzcb, hL1, hstep1]
    dsimp only
    rw [hfull1, if_neg Bool.false_ne_true]
  rw [hstate, mp_step]
  dsimp only
  rw [alloc_ok]
  dsimp only
  rw [hsel1]
  dsimp only
  rw [hctzcb, hL1, hinit_safe]
  rw [if_pos (show (true && true) = true from rfl)]
  rw [halloc1]
  dsimp only
  rw [hblk1]

/-- C8: from a freshly constructed multi-pool, b * b allocations fill
pool 0 of the first block — bit 0 of its unmaxed_pools goes from set
(after b * b - 1 allocations) to clear, pool 0 reports full — and the
(b * b + 1)-th allocation returns an address inside the data array of
pool index 1 of the first block. -/
theorem claim_C8 {g : geo_t} {base0 : Nat} (hg : geo_ok g)
    (hfit : block_fits g base0 = true) (m : Nat) :
    ∃ s1 l1 s2 l2 s3,
      mp_run g base0 (List.replicate (g.b * g.b - 1) (MPOp.alloc m)) =
        some (s1, l1) ∧
      mp_run g base0 (List.replicate (g.b * g.b) (MPOp.alloc m)) =
        some (s2, l2) ∧
      test_bit (s1.memory_blocks.getD 0 blockDefault).unmaxed_pools 0 = true ∧
      test_bit (s2.memory_blocks.getD 0 blockDefault).unmaxed_pools 0 = false ∧
      ((s2.memory_blocks.getD 0 blockDefault).pools.getD 0 poolDefault).full
        = true ∧
      mp_run g base0
          (List.replicate (g.b * g.b) (MPOp.alloc m) ++ [MPOp.alloc m]) =
        some (s3, slot_addr g base0 1 0 :: l2) ∧
      base0 + 1 * g.S + g.D ≤ slot_addr g base0 1 0 ∧
      slot_addr g base0 1 0 + g.E ≤ base0 + 1 * g.S + g.D + g.b * g.b * g.E := by
  have hb2 : 2 ≤ g.b := hg.1
  have hb : 0 < g.b := by omega
  have hbb : 0 < g.b * g.b := Nat.mul_pos hb hb
  have hmask_lt : allMask g.b < 2 ^ g.b := by
    have := Nat.two_pow_pos g.b
    rw [allMask]
    omega
  refine ⟨mp_after g base0 (g.b * g.b - 1), mp_live_after g base0 (g.b * g.b - 1),
    mp_after g base0 (g.b * g.b), mp_live_after g base0 (g.b * g.b),
    ⟨[⟨base0, clear_bit g.b (allMask g.b) 0,
      ((List.replicate g.b (pool_t.init g.b)).set 0
        (pool_after g.b (g.b * g.b))).set 1 (pool_after g.b 1)⟩]⟩,
    mp_allocs_mp_run hg hfit m (by omega),
    mp_allocs_mp_run hg hfit m (le_refl _), ?_, ?_, ?_, ?_, ?_, ?_⟩
  · rw [mp_after, if_pos (by omega)]
    rw [show (({ memory_blocks := [⟨base0, allMask g.b,
        (List.replicate g.b (pool_t.init g.b)).set 0
          (pool_after g.b (g.b * g.b - 1))⟩] } :
        multi_pool_t).memory_blocks.getD 0 blockDefault).unmaxed_pools =
      allMask g.b from rfl]
    rw [test_bit]
    rw [show allMask g.b = 2 ^ g.b - 2 ^ 0 from by rw [allMask]; norm_num]
    rw [testBit_pow_sub_pow (Nat.zero_le _)]
    simp [hb]
  · rw [mp_after, if_neg (Nat.lt_irrefl _)]
    rw [show (({ memory_blocks := [⟨base0, clear_bit g.b (allMask g.b) 0,
        (List.replicate g.b (pool_t.init g.b)).set 0
          (pool_after g.b (g.b * g.b))⟩] } :
        multi_pool_t).memory_blocks.getD 0 blockDefault).unmaxed_pools =
      clear_bit g.b (allMask g.b) 0 from rfl]
    rw [test_bit, clear_bit_testBit _ _ hmask_lt]
    simp
  · rw [mp_after, if_neg (Nat.lt_irrefl _)]
    rw [show (({ memory_blocks := [⟨base0, clear_bit g.b (allMask g.b) 0,
        (List.replicate g.b (pool_t.init g.b)).set 0
          (pool_after g.b (g.b * g.b))⟩] } :
        multi_pool_t).memory_blocks.getD 0 blockDefault).pools =
      (List.replicate g.b (pool_t.init g.b)).set 0
        (pool_after g.b (g.b * g.b)) from rfl]
    rw [getD_set_eq _ _ _ _ (by simpa using hb)]
    rw [pool_full_iff, pool_after_uw, Nat.mul_div_cancel _ hb]
    exact Nat.sub_self _
  · rw [mp_run, if_pos hfit, List.foldlM_append]
    rw [mp_allocs_run hg m (g.b * g.b) (le_refl _)]
    rw [option_some_bind, foldlM_singleton]
    exact mp_alloc_step_full hg m
  · rw [slot_addr]
    omega
  · have hEle : g.E ≤ g.b * g.b * g.E :=
      Nat.le_mul_of_pos_left _ hbb
    rw [slot_addr]
    omega

/-- Witness for claim C8 at the shipped 64-bit geometry and base
address 4096. -/
theorem claim_C8_witness :
    geo_ok g64 ∧ block_fits g64 4096 = true ∧
    (∃ s1 l1 s2 l2 s3,
      mp_run g64 4096 (List.replicate (g64.b * g64.b - 1) (MPOp.alloc 0)) =
        some (s1, l1) ∧
      mp_run g64 4096 (List.replicate (g64.b * g64.b) (MPOp.alloc 0)) =
        some (s2, l2) ∧
      test_bit (s1.memory_blocks.getD 0 blockDefault).unmaxed_pools 0 = true ∧
      test_bit (s2.memory_blocks.getD 0 blockDefault).unmaxed_pools 0 = false ∧
      ((s2.memory_blocks.getD 0 blockDefault).pools.getD 0 poolDefault).full
        = true ∧
      mp_run g64 4096
          (List.replicate (g64.b * g64.b) (MPOp.alloc 0) ++ [MPOp.alloc 0]) =
        some (s3, slot_addr g64 4096 1 0 :: l2) ∧
      4096 + 1 * g64.S + g64.D ≤ slot_addr g64 4096 1 0 ∧
      slot_addr g64 4096 1 0 + g64.E ≤
        4096 + 1 * g64.S + g64.D + g64.b * g64.b * g64.E) :=
  ⟨by decide, by decide, claim_C8 (by decide) (by decide) 0⟩

/-- C3 counterexample: fill pool 0 of the initial block (4096
allocations at the shipped geometry), then deallocate the first slot.
The pool's word 0 becomes nonzero but unused_words stays 0, so the pool
still reports full while bit 0 of unmaxed_pools is set again — the
biconditional B1 fails on the reachable state. -/
theorem claim_C3_counterexample :
    mp_run g64 4096 (List.replicate 4096 (MPOp.alloc 0) ++
        [MPOp.dealloc (slot_addr g64 4096 0 0)]) =
      some (⟨[⟨4096, allMask 64,
        ((List.replicate 64 (pool_t.init 64)).set 0 (pool_after 64 4096)).set 0
          (pool_t.deallocate 64 (pool_after 64 4096) 0)⟩]⟩,
        (mp_live_after g64 4096 4096).erase (slot_addr g64 4096 0 0)) ∧
    ¬ B1 g64 ⟨4096, allMask 64,
        ((List.replicate 64 (pool_t.init 64)).set 0 (pool_after 64 4096)).set 0
          (pool_t.deallocate 64 (pool_after 64 4096) 0)⟩ := by
  constructor
  · rw [mp_run, if_pos (by decide), List.foldlM_append]
    rw [mp_allocs_run (by decide) 0 4096 (by decide)]
    rw [option_some_bind, foldlM_singleton]
    have hstate : mp_after g64 4096 4096 = ⟨[⟨4096, clear_bit 64 (allMask 64) 0,
        (List.replicate 64 (pool_t.init 64)).set 0 (pool_after 64 4096)⟩]⟩ := by
      rw [mp_after, if_neg (by decide)]
      rfl
    have hmem : slot_addr g64 4096 0 0 ∈ mp_live_after g64 4096 4096 := by
      rw [mp_live_after]
      exact List.mem_map.mpr ⟨0, by simp, rfl⟩
    rw [hstate, mp_step]
    dsimp only
    rw [if_pos hmem]
    rw [Option.some_inj, Prod.mk.injEq]
    exact ⟨by decide, rfl⟩
  · decide

/-! Round trip allocate-deallocate-allocate: bit-level helpers. -/

theorem set_bit_self {n bit : Nat} (h : n.testBit bit = true) :
    set_bit n bit = n := by
  apply Nat.eq_of_testBit_eq
  intro i
  rw [set_bit_testBit]
  by_cases hbi : bit = i
  · subst hbi; simp [h]
  · simp [hbi]

theorem set_bit_clear_bit {b n bit : Nat} (hn : n < 2 ^ b)
    (h : n.testBit bit = true) : set_bit (clear_bit b n bit) bit = n := by
  apply Nat.eq_of_testBit_eq
  intro i
  rw [set_bit_testBit, clear_bit_testBit _ _ hn]
  by_cases hbi : bit = i
  · subst hbi; simp [h]
  · simp [hbi]

theorem clear_bit_ctz_ne_zero {b w : Nat} (hw : w < 2 ^ b) (hnz : w ≠ 0)
    (hrich : w ≠ 2 ^ ctz w) : clear_bit b w (ctz w) ≠ 0 := by
  intro h0
  apply hrich
  apply Nat.eq_of_testBit_eq
  intro i
  rw [Nat.testBit_two_pow]
  by_cases hi : ctz w = i
  · subst hi
    simp [ctz_testBit _ hnz]
  · have hz : (clear_bit b w (ctz w)).testBit i = false := by
      rw [h0]
      simp
    rw [clear_bit_testBit _ _ hw] at hz
    by_cases hwi : w.testBit i
    · rw [hwi] at hz
      simp [hi] at hz
    · simp [hwi, hi]

/-- A pool allocation whose selected bucket has at least one more free
slot than the one ctz picks is exactly undone by deallocating the
returned index. -/
theorem pool_roundtrip {b : Nat} {p : pool_t} (hb : 0 < b)
    (hPB : poolBounds b p) (hsafe : pool_alloc_safe b p = true)
    (hrich : word p (ctz p.unused_words) ≠
      2 ^ ctz (word p (ctz p.unused_words))) :
    pool_t.deallocate b (pool_t.allocate b p).2 (pool_t.allocate b p).1 = p := by
  obtain ⟨huwnz, hwnz⟩ := pool_alloc_safe_elim hsafe
  obtain ⟨hlen, huwlt, hws⟩ := hPB
  have hk : ctz p.unused_words < b := ctz_lt huwnz huwlt
  have hwlt : word p (ctz p.unused_words) < 2 ^ b := word_lt hws _
  have ht : ctz (word p (ctz p.unused_words)) < b := ctz_lt hwnz hwlt
  have hw1nz : clear_bit b (word p (ctz p.unused_words))
      (ctz (word p (ctz p.unused_words))) ≠ 0 :=
    clear_bit_ctz_ne_zero hwlt hwnz hrich
  have huw2 : (pool_t.allocate b p).2.unused_words = p.unused_words := by
    rw [pool_allocate_uw, if_neg hw1nz]
  have hslots2 : (pool_t.allocate b p).2.unallocated_slots =
      p.unallocated_slots.set (ctz p.unused_words)
        (clear_bit b (word p (ctz p.unused_words))
          (ctz (word p (ctz p.unused_words)))) := pool_allocate_slots b p
  rw [pool_allocate_index]
  rw [pool_deallocate_eq _ hb ht]
  have hword2 : word (pool_t.allocate b p).2 (ctz p.unused_words) =
      clear_bit b (word p (ctz p.unused_words))
        (ctz (word p (ctz p.unused_words))) := by
    rw [word, hslots2]
    exact getD_set_eq _ _ _ _ (by rw [hlen]; exact hk)
  have hset : set_bit (word (pool_t.allocate b p).2 (ctz p.unused_words))
      (ctz (word p (ctz p.unused_words))) = word p (ctz p.unused_words) := by
    rw [hword2]
    exact set_bit_clear_bit hwlt (ctz_testBit _ hwnz)
  rw [hset, huw2, hslots2]
  have huwfix : (if word p (ctz p.unused_words) = allMask b
      then set_bit p.unused_words (ctz p.unused_words)
      else p.unused_words) = p.unused_words := by
    split
    · exact set_bit_self (ctz_testBit _ huwnz)
    · rfl
  rw [huwfix, List.set_set]
  rw [show p.unallocated_slots.set (ctz p.unused_words)
      (word p (ctz p.unused_words)) = p.unallocated_slots from
    set_getD_self _ _ _]

/-! Claim C6. -/

/-- Amended claim C6: from any reachable multi-pool state whose next
allocation is served by a pool whose selected bucket has a second free
slot besides the one ctz picks (rich_sel), allocate(1) followed by
deallocate of the returned pointer restores the state exactly, and the
next allocate(1) returns exactly the same pointer — in particular a
pointer into the same pool.  Without that extra free slot the same-slot
property fails (see the counterexample): the freed word does not become
all-ones, deallocate leaves the unused_words bit clear, and ctz selects
the next bucket. -/
theorem claim_C6_amended {g : geo_t} {base0 : Nat} {ops : List MPOp}
    {s : multi_pool_t} {live : List Nat} (hg : geo_ok g)
    (hrun : mp_run g base0 ops = some (s, live))
    (hrich : rich_sel g s = true) (m m2 : Option Nat) :
    multi_pool_t.deallocate g (multi_pool_t.allocate g 1 m s).1 1
      (multi_pool_t.allocate g 1 m s).2 = s ∧
    (multi_pool_t.allocate g 1 m2 (multi_pool_t.deallocate g
        (multi_pool_t.allocate g 1 m s).1 1
        (multi_pool_t.allocate g 1 m s).2)).1 =
      (multi_pool_t.allocate g 1 m s).1 := by
  have hb : 0 < g.b := by have := hg.1; omega
  obtain ⟨hM, hL⟩ := mp_run_inv hg hrun
  rw [rich_sel] at hrich
  cases hsel : sel_block s.memory_blocks with
  | none =>
    rw [hsel] at hrich
    exact Bool.noConfusion hrich
  | some blk =>
  rw [hsel] at hrich
  dsimp only at hrich
  rw [Bool.and_eq_true, decide_eq_true_eq] at hrich
  obtain ⟨hsafe, hrich2⟩ := hrich
  obtain ⟨l2, l3, hdec, hzero, hnz, haeq⟩ := mp_allocate_sel 1 m hsel
  have hj : l2.length < s.memory_blocks.length := by
    rw [hdec, List.length_append, List.length_cons]
    omega
  have hgetDj : s.memory_blocks.getD l2.length blockDefault = blk := by
    conv_lhs => rw [hdec]
    exact getD_middle _ _ _ _
  have hBj := blockInv_getD hM hj
  rw [hgetDj] at hBj
  obtain ⟨hplen, humax, hfits, hB1w, hpools⟩ := hBj
  have hisel : ctz blk.unmaxed_pools < g.b := ctz_lt hnz humax
  set pool := blk.pools.getD (ctz blk.unmaxed_pools) poolDefault with hpooldef
  have hpmem : pool ∈ blk.pools := getD_mem_of_lt (by rw [hplen]; exact hisel) _
  obtain ⟨hPB, hP1w, hPFF⟩ := hpools _ hpmem
  obtain ⟨huwnz, hwnz⟩ := pool_alloc_safe_elim hsafe
  have hk : ctz pool.unused_words < g.b := ctz_lt huwnz hPB.2.1
  have hwlt : word pool (ctz pool.unused_words) < 2 ^ g.b := word_lt hPB.2.2 _
  have ht : ctz (word pool (ctz pool.unused_words)) < g.b := ctz_lt hwnz hwlt
  have hidx : ctz pool.unused_words * g.b +
      ctz (word pool (ctz pool.unused_words)) < g.b * g.b :=
    slot_index_lt hk ht
  have hrichw : word pool (ctz pool.unused_words) ≠
      2 ^ ctz (word pool (ctz pool.unused_words)) := hrich2
  have hw1nz : clear_bit g.b (word pool (ctz pool.unused_words))
      (ctz (word pool (ctz pool.unused_words))) ≠ 0 :=
    clear_bit_ctz_ne_zero hwlt hwnz hrichw
  have hfull : (pool_t.allocate g.b pool).2.full = false := by
    rw [pool_full_false_iff, pool_allocate_uw, if_neg hw1nz]
    exact huwnz
  have hblkA : (blk_alloc g blk).2 =
      ⟨blk.ptr, blk.unmaxed_pools,
       blk.pools.set (ctz blk.unmaxed_pools) (pool_t.allocate g.b pool).2⟩ := by
    rw [blk_alloc]
    dsimp only
    rw [hfull, if_neg Bool.false_ne_true]
  have hp1 : (blk_alloc g blk).1 = slot_addr g blk.ptr (ctz blk.unmaxed_pools)
      (ctz pool.unused_words * g.b + ctz (word pool (ctz pool.unused_words))) := by
    rw [blk_alloc]
    dsimp only
    rw [pool_allocate_index]
  set p1 := slot_addr g blk.ptr (ctz blk.unmaxed_pools)
      (ctz pool.unused_words * g.b +
        ctz (word pool (ctz pool.unused_words))) with hp1def
  set blkA : block_t := ⟨blk.ptr, blk.unmaxed_pools,
      blk.pools.set (ctz blk.unmaxed_pools)
        (pool_t.allocate g.b pool).2⟩ with hblkAdef
  have haeq1 : multi_pool_t.allocate g 1 m s = (p1, ⟨l2 ++ blkA :: l3⟩) := by
    rw [haeq, hp1, hblkA]
  have hhit : dealloc_pool_idx g p1 blkA.ptr < g.b := by
    rw [hp1def, show blkA.ptr = blk.ptr from rfl]
    rw [dealloc_pool_idx_owner hg hfits hisel hidx]
    exact hisel
  have hmiss : ∀ c ∈ l3, ¬ dealloc_pool_idx g p1 c.ptr < g.b := by
    intro c hc
    have hcmem : c ∈ s.memory_blocks := by
      rw [hdec]
      exact List.mem_append.mpr (Or.inr (List.mem_cons_of_mem _ hc))
    have hfitc : block_fits g c.ptr = true := (hM.1 c hcmem).2.2.1
    have hsep := hM.2
    rw [sepInv, hdec, List.map_append, List.map_cons] at hsep
    have h1 := (List.pairwise_append.mp hsep).2.1
    have h2 := (List.pairwise_cons.mp h1).1 c.ptr (List.mem_map_of_mem _ hc)
    rw [hp1def]
    exact dealloc_pool_idx_miss hg hfitc hfits (ranges_disjoint_symm h2) hisel hidx
  have hdeal : multi_pool_t.deallocate g p1 1 ⟨l2 ++ blkA :: l3⟩ =
      ⟨l2 ++ blk_dealloc g p1 blkA :: l3⟩ :=
    mp_deallocate_hit 1 hmiss hhit
  have howner : dealloc_pool_idx g p1 blkA.ptr = ctz blk.unmaxed_pools := by
    rw [hp1def, show blkA.ptr = blk.ptr from rfl]
    exact dealloc_pool_idx_owner hg hfits hisel hidx
  have hindex : dealloc_index g p1 blkA.ptr (ctz blk.unmaxed_pools) =
      ctz pool.unused_words * g.b + ctz (word pool (ctz pool.unused_words)) := by
    rw [hp1def, show blkA.ptr = blk.ptr from rfl]
    exact dealloc_index_owner hg hidx
  have hgetDA : blkA.pools.getD (ctz blk.unmaxed_pools) poolDefault =
      (pool_t.allocate g.b pool).2 := by
    rw [show blkA.pools = blk.pools.set (ctz blk.unmaxed_pools)
      (pool_t.allocate g.b pool).2 from rfl]
    exact getD_set_eq _ _ _ _ (by rw [hplen]; exact hisel)
  have hround : pool_t.deallocate g.b (pool_t.allocate g.b pool).2
      (ctz pool.unused_words * g.b + ctz (word pool (ctz pool.unused_words))) =
      pool := by
    have hrt := pool_roundtrip hb hPB hsafe hrichw
    rw [pool_allocate_index] at hrt
    exact hrt
  have hsetbit : set_bit blkA.unmaxed_pools (ctz blk.unmaxed_pools) =
      blk.unmaxed_pools := by
    rw [show blkA.unmaxed_pools = blk.unmaxed_pools from rfl]
    exact set_bit_self (ctz_testBit _ hnz)
  have hblkback : blk_dealloc g p1 blkA = blk := by
    rw [blk_dealloc]
    dsimp only
    rw [howner, hindex, hgetDA, hround, hsetbit]
    rw [List.set_set]
    rw [show blk.pools.set (ctz blk.unmaxed_pools) pool = blk.pools from
      set_getD_self _ _ _]
  have hback : multi_pool_t.deallocate g (multi_pool_t.allocate g 1 m s).1 1
      (multi_pool_t.allocate g 1 m s).2 = s := by
    rw [haeq1]
    rw [show ((p1, (⟨l2 ++ blkA :: l3⟩ : multi_pool_t)).1 : Nat) = p1 from rfl]
    rw [show ((p1, (⟨l2 ++ blkA :: l3⟩ : multi_pool_t)).2 : multi_pool_t) =
      ⟨l2 ++ blkA :: l3⟩ from rfl]
    rw [hdeal, hblkback, ← hdec]
  refine ⟨hback, ?_⟩
  rw [hback]
  obtain ⟨l2x, l3x, hdecx, hzerox, hnzx, haeqx⟩ := mp_allocate_sel 1 m2 hsel
  rw [haeqx, haeq1]
  exact hp1

/-- Witness for the amended claim C6 on the freshly constructed
multi-pool (whose selected bucket is entirely free). -/
theorem claim_C6_amended_witness :
    geo_ok g64 ∧
    mp_run g64 4096 [] = some (multi_pool_t.init g64 (some 4096), []) ∧
    rich_sel g64 (multi_pool_t.init g64 (some 4096)) = true ∧
    (multi_pool_t.deallocate g64
        (multi_pool_t.allocate g64 1 (some 0)
          (multi_pool_t.init g64 (some 4096))).1 1
        (multi_pool_t.allocate g64 1 (some 0)
          (multi_pool_t.init g64 (some 4096))).2 =
      multi_pool_t.init g64 (some 4096) ∧
     (multi_pool_t.allocate g64 1 (some 0) (multi_pool_t.deallocate g64
        (multi_pool_t.allocate g64 1 (some 0)
          (multi_pool_t.init g64 (some 4096))).1 1
        (multi_pool_t.allocate g64 1 (some 0)
          (multi_pool_t.init g64 (some 4096))).2)).1 =
      (multi_pool_t.allocate g64 1 (some 0)
        (multi_pool_t.init g64 (some 4096))).1) :=
  ⟨by decide, by decide, by decide,
    @claim_C6_amended g64 4096 [] (multi_pool_t.init g64 (some 4096)) []
      (by decide) (by decide) (by decide) (some 0) (some 0)⟩

/-- C6 counterexample: 64 allocations from construction fill bucket 0
of pool 0; the 64th returns p1 = the address of slot 63.  After
deallocate(p1) — which leaves the word short of all-ones, so the
unused_words bit stays clear — the next allocate(1) picks bucket 1 and
returns the address of slot 64, not p1. -/
theorem claim_C6_counterexample :
    mp_run g64 4096 (List.replicate 64 (MPOp.alloc 0)) =
      some (mp_after g64 4096 64, mp_live_after g64 4096 64) ∧
    (mp_live_after g64 4096 64).headD 0 = slot_addr g64 4096 0 63 ∧
    mp_run g64 4096 (List.replicate 64 (MPOp.alloc 0) ++
        [MPOp.dealloc (slot_addr g64 4096 0 63), MPOp.alloc 0]) =
      some ((multi_pool_t.allocate g64 1 (some 0)
          (multi_pool_t.deallocate g64 (slot_addr g64 4096 0 63) 1
            (mp_after g64 4096 64))).2,
        (multi_pool_t.allocate g64 1 (some 0)
          (multi_pool_t.deallocate g64 (slot_addr g64 4096 0 63) 1
            (mp_after g64 4096 64))).1 ::
        (mp_live_after g64 4096 64).erase (slot_addr g64 4096 0 63)) ∧
    (multi_pool_t.allocate g64 1 (some 0)
        (multi_pool_t.deallocate g64 (slot_addr g64 4096 0 63) 1
          (mp_after g64 4096 64))).1 = slot_addr g64 4096 0 64 ∧
    slot_addr g64 4096 0 64 ≠ slot_addr g64 4096 0 63 := by
  refine ⟨mp_allocs_mp_run (by decide) (by decide) 0 (by decide), by decide,
    ?_, by decide, by decide⟩
  rw [mp_run, if_pos (by decide), List.foldlM_append]
  rw [mp_allocs_run (by decide) 0 64 (by decide)]
  rw [option_some_bind, List.foldlM_cons]
  have hmem : slot_addr g64 4096 0 63 ∈ mp_live_after g64 4096 64 := by
    rw [mp_live_after]
    exact List.mem_map.mpr ⟨63, by simp, rfl⟩
  have hd : mp_step g64 (mp_after g64 4096 64, mp_live_after g64 4096 64)
      (MPOp.dealloc (slot_addr g64 4096 0 63)) =
      some (multi_pool_t.deallocate g64 (slot_addr g64 4096 0 63) 1
          (mp_after g64 4096 64),
        (mp_live_after g64 4096 64).erase (slot_addr g64 4096 0 63)) := by
    rw [mp_step]
    dsimp only
    rw [if_pos hmem]
  rw [hd, option_some_bind, foldlM_singleton]
  rw [mp_step]
  dsimp only
  rw [if_pos (by decide)]

/-! Claim C9: deallocating every live pointer restores the all-ones
flags. -/

theorem mp_dealloc_fold {g : geo_t} (hg : geo_ok g) :
    ∀ (ds : List Nat) (s : multi_pool_t) (live : List Nat),
    MPTraceInv g (s, live) → ds.Perm live →
    ∃ s2, List.foldlM (mp_step g) ((s, live) : multi_pool_t × List Nat)
        (ds.map MPOp.dealloc) = some (s2, []) ∧ MPTraceInv g (s2, []) := by
  intro ds
  induction ds with
  | nil =>
    intro s live hI hperm
    have hlen : live.length = 0 := by
      have := hperm.length_eq
      simpa using this.symm
    have hnil : live = [] := List.eq_nil_of_length_eq_zero hlen
    subst hnil
    exact ⟨s, by rw [List.map_nil, List.foldlM_nil]; rfl, hI⟩
  | cons d ds ih =>
    intro s live hI hperm
    have hmem : d ∈ live := hperm.subset (List.mem_cons_self d ds)
    have hstep : mp_step g (s, live) (MPOp.dealloc d) =
        some (multi_pool_t.deallocate g d 1 s, live.erase d) := by
      rw [mp_step]
      dsimp only
      rw [if_pos hmem]
    have hI2 := mp_dealloc_inv hg hI hmem 1
    have hperm2 : ds.Perm (live.erase d) :=
      (List.cons_perm_iff_perm_erase.mp hperm).2
    obtain ⟨s2, hfold, hI3⟩ := ih _ _ hI2 hperm2
    refine ⟨s2, ?_, hI3⟩
    rw [List.map_cons, List.foldlM_cons, hstep, option_some_bind]
    exact hfold

theorem all_ones_of_no_live {g : geo_t} {s : multi_pool_t} (hg : geo_ok g)
    (hI : MPTraceInv g (s, [])) : all_ones g s := by
  obtain ⟨hM, hL⟩ := hI
  have hb : 0 < g.b := by have := hg.1; omega
  have hmaskbit : ∀ i : Nat, (allMask g.b).testBit i = decide (i < g.b) := by
    intro i
    rw [show allMask g.b = 2 ^ g.b - 2 ^ 0 from by rw [allMask]; norm_num]
    rw [testBit_pow_sub_pow (Nat.zero_le _)]
    simp
  intro blk hblk
  obtain ⟨j, hj, hjval⟩ := List.getElem_of_mem hblk
  have hgetD : s.memory_blocks.getD j blockDefault = blk := by
    rw [List.getD_eq_getElem _ _ hj, hjval]
  have hB := blockInv_getD hM hj
  rw [hgetD] at hB
  obtain ⟨hplen, humax, hfits, hB1w, hpools⟩ := hB
  have hfree : ∀ i k t, i < g.b → k < g.b → t < g.b →
      slotFree s j i k t = true := by
    intro i k t hi hk ht
    cases hsf : slotFree s j i k t with
    | true => rfl
    | false =>
      have := hL.2.1 j i k t hj hi hk ht hsf
      exact absurd this (List.not_mem_nil _)
  have hword : ∀ i, i < g.b → ∀ k, k < g.b →
      word (blk.pools.getD i poolDefault) k = allMask g.b := by
    intro i hi k hk
    have hpmem : blk.pools.getD i poolDefault ∈ blk.pools :=
      getD_mem_of_lt (by rw [hplen]; exact hi) _
    obtain ⟨hPB, hP1w, hPFF⟩ := hpools _ hpmem
    apply Nat.eq_of_testBit_eq
    intro t
    rw [hmaskbit]
    by_cases ht : t < g.b
    · have hfr := hfree i k t hi hk ht
      rw [slotFree, hgetD, test_bit] at hfr
      rw [word]
      rw [hfr]
      simp [ht]
    · have hwlt := word_lt hPB.2.2 k
      rw [word]
      rw [show (blk.pools.getD i poolDefault).unallocated_slots.getD k 0 =
        word (blk.pools.getD i poolDefault) k from rfl]
      rw [Nat.testBit_lt_two_pow (lt_of_lt_of_le hwlt
        (Nat.pow_le_pow_right (by decide) (by omega)))]
      simp [ht]
  have huwmask : ∀ i, i < g.b →
      (blk.pools.getD i poolDefault).unused_words = allMask g.b := by
    intro i hi
    have hpmem : blk.pools.getD i poolDefault ∈ blk.pools :=
      getD_mem_of_lt (by rw [hplen]; exact hi) _
    obtain ⟨hPB, hP1w, hPFF⟩ := hpools _ hpmem
    apply Nat.eq_of_testBit_eq
    intro k
    rw [hmaskbit]
    by_cases hk : k < g.b
    · have := hPFF k hk (hword i hi k hk)
      rw [test_bit] at this
      rw [this]
      simp [hk]
    · rw [Nat.testBit_lt_two_pow (lt_of_lt_of_le hPB.2.1
        (Nat.pow_le_pow_right (by decide) (by omega)))]
      simp [hk]
  refine ⟨?_, ?_⟩
  · apply Nat.eq_of_testBit_eq
    intro i
    rw [hmaskbit]
    by_cases hi : i < g.b
    · have hfull : (blk.pools.getD i poolDefault).full = false := by
        rw [pool_full_false_iff, huwmask i hi]
        exact allMask_ne_zero hb
      have := hB1w i hi hfull
      rw [test_bit] at this
      rw [this]
      simp [hi]
    · rw [Nat.testBit_lt_two_pow (lt_of_lt_of_le humax
        (Nat.pow_le_pow_right (by decide) (by omega)))]
      simp [hi]
  · intro p hp
    obtain ⟨i, hi, hival⟩ := List.getElem_of_mem hp
    have hilen : i < g.b := by rw [← hplen]; exact hi
    have hpgetD : blk.pools.getD i poolDefault = p := by
      rw [List.getD_eq_getElem _ _ hi, hival]
    refine ⟨by rw [← hpgetD]; exact huwmask i hilen, ?_⟩
    intro w hw
    obtain ⟨hPBp, _, _⟩ := hpools p hp
    obtain ⟨k, hk, hkval⟩ := List.getElem_of_mem hw
    have hklen : k < g.b := by rw [← hPBp.1]; exact hk
    have hwgetD : word p k = w := by
      rw [word, List.getD_eq_getElem _ _ hk, hkval]
    rw [← hwgetD, ← hpgetD]
    exact hword i hilen k hklen

/-- Claim C9: from any reachable multi-pool state, deallocating all of
the outstanding pointers (in any order) leaves every visible flag —
every pool's unused_words and unallocated_slots words and every block's
unmaxed_pools — all-ones, the post-construction value of every block.
In particular this holds after allocating k items from a fresh
multi-pool and deallocating all of them. -/
theorem claim_C9 {g : geo_t} {base0 : Nat} {ops : List MPOp}
    {s : multi_pool_t} {live : List Nat} {ds : List Nat} (hg : geo_ok g)
    (hrun : mp_run g base0 ops = some (s, live)) (hperm : ds.Perm live) :
    ∃ s2, List.foldlM (mp_step g) ((s, live) : multi_pool_t × List Nat)
        (ds.map MPOp.dealloc) = some (s2, []) ∧ all_ones g s2 := by
  obtain ⟨s2, hfold, hI⟩ :=
    mp_dealloc_fold hg ds s live (mp_run_inv hg hrun) hperm
  exact ⟨s2, hfold, all_ones_of_no_live hg hI⟩

/-- Witness for claim C9: one allocation from construction, then its
deallocation. -/
theorem claim_C9_witness :
    geo_ok g64 ∧
    mp_run g64 4096 [MPOp.alloc 0] =
      some ((multi_pool_t.allocate g64 1 (some 0)
          (multi_pool_t.init g64 (some 4096))).2,
        [slot_addr g64 4096 0 0]) ∧
    List.Perm [slot_addr g64 4096 0 0] [slot_addr g64 4096 0 0] ∧
    (∃ s2, List.foldlM (mp_step g64)
        (((multi_pool_t.allocate g64 1 (some 0)
            (multi_pool_t.init g64 (some 4096))).2,
          [slot_addr g64 4096 0 0]) : multi_pool_t × List Nat)
        ([slot_addr g64 4096 0 0].map MPOp.dealloc) =
      some (s2, []) ∧ all_ones g64 s2) :=
  ⟨by decide, by decide, List.Perm.refl _,
    @claim_C9 g64 4096 [MPOp.alloc 0]
      (multi_pool_t.allocate g64 1 (some 0)
        (multi_pool_t.init g64 (some 4096))).2
      [slot_addr g64 4096 0 0] [slot_addr g64 4096 0 0]
      (by decide) (by decide) (List.Perm.refl _)⟩

end MPA
